import Mathlib

/-!
# Verification of the sentinel-based circular doubly linked list (`sixth`)

Shallow embedding of `src/sixth/{node.rs, mod.rs, cursor.rs, iter.rs}`.

Memory model: the heap is a total function from addresses (`Nat`) to node
records, together with a list of currently allocated addresses and a fresh
counter.  `Box::into_raw` allocates at the fresh address; deallocation
removes the address from the allocation list but leaves the stored bytes in
place (addresses are never reused, so a use-after-free read deterministically
returns the stale contents — the defined-behaviour fragment of the program
never performs such a read).  `MaybeUninit<T>` is `Option T`; `assume_init`
on an uninitialized slot returns the `Inhabited` default (junk).
`NonNull::dangling()` is address `0`; real allocations start at `1`.

`usize` arithmetic is `Nat` with explicit wrapping / saturation at `2^64`.
-/

namespace Sixth

/-- Width of `usize` (the code targets a 64-bit platform). -/
def USIZE : Nat := 2 ^ 64

/-- `usize::wrapping_add`. -/
def wrapAdd (a b : Nat) : Nat := (a + b) % USIZE

/-- `usize::wrapping_sub` (operands are `usize` values, i.e. `< USIZE`). -/
def wrapSub (a b : Nat) : Nat := (a % USIZE + (USIZE - b % USIZE)) % USIZE

/-- `usize::saturating_add`. -/
def satAdd (a b : Nat) : Nat := min (a + b) (USIZE - 1)

/-- `usize::saturating_sub` (on `Nat`, truncated subtraction). -/
def satSub (a b : Nat) : Nat := a - b

/-- `NonNull::dangling()` modelled as address 0; never dereferenced in
defined-behaviour executions. -/
def danglingAddr : Nat := 0

/-- `Node<T>` (node.rs): `prev` and `next` are raw pointers (addresses),
`item : MaybeUninit<T>` is `Option T` (`none` = uninitialized). -/
@[ext]
structure Node (T : Type) where
  prev : Nat
  next : Nat
  item : Option T
deriving Repr, DecidableEq

/-- The heap: total memory, allocation set, fresh-address counter.
Deallocated cells keep their last contents (addresses are never reused). -/
@[ext]
structure Heap (T : Type) where
  mem : Nat → Node T
  alloc : List Nat
  fresh : Nat

namespace Heap

/-- The all-zero junk cell returned for never-written addresses. -/
def junk {T : Type} : Node T := ⟨0, 0, none⟩

/-- The empty heap; real addresses start at 1 (0 is `danglingAddr`). -/
def empty (T : Type) : Heap T := ⟨fun _ => junk, [], 1⟩

variable {T : Type}

/-- Store a whole node at an address. -/
def set (h : Heap T) (a : Nat) (n : Node T) : Heap T :=
  { h with mem := fun x => if x = a then n else h.mem x }

/-- `NodePtr::set_next`. -/
def setNext (h : Heap T) (a b : Nat) : Heap T :=
  h.set a { h.mem a with next := b }

/-- `NodePtr::set_prev`. -/
def setPrev (h : Heap T) (a b : Nat) : Heap T :=
  h.set a { h.mem a with prev := b }

/-- Overwrite the payload slot at an address (write through `&mut T`). -/
def setItem (h : Heap T) (a : Nat) (v : Option T) : Heap T :=
  h.set a { h.mem a with item := v }

/-- `NodePtr::link(self, ptr)`: `self.set_next(ptr); ptr.set_prev(self)`. -/
def link (h : Heap T) (a b : Nat) : Heap T :=
  (h.setNext a b).setPrev b a

/-- `NodePtr::raw_alloc(prev, item, next)` — `Box::into_raw(Box::new(..))`
at the fresh address. -/
def allocNode (h : Heap T) (prev : Nat) (item : Option T) (next : Nat) :
    Nat × Heap T :=
  (h.fresh,
    { mem := fun x => if x = h.fresh then ⟨prev, next, item⟩ else h.mem x
      alloc := h.fresh :: h.alloc
      fresh := h.fresh + 1 })

/-- `NodePtr::dummy()`: allocate an uninitialized cell with dangling links,
then `set_prev self; set_next self`. -/
def allocDummy (h : Heap T) : Nat × Heap T :=
  let (d, h₁) := h.allocNode danglingAddr none danglingAddr
  (d, (h₁.setPrev d d).setNext d d)

/-- `Box::from_raw` + drop of the box: remove from the allocation set and
return the (final) node contents.  Memory contents stay in place. -/
def dealloc (h : Heap T) (a : Nat) : Node T × Heap T :=
  (h.mem a, { h with alloc := h.alloc.erase a })

end Heap

/-- `LinkedList<T>` (mod.rs) together with the heap it lives in: the state
every embedded operation passes along. -/
@[ext]
structure St (T : Type) where
  heap : Heap T
  dummy : Option Nat
  len : Nat

namespace St

variable {T : Type}

/-- `LinkedList::new()`. -/
def new (T : Type) : St T := ⟨Heap.empty T, none, 0⟩

/-- `MaybeUninit::assume_init` — defined-behaviour executions only read
initialized slots; an uninitialized read yields junk. -/
def assumeInit [Inhabited T] (o : Option T) : T := o.getD default

/-- `NodePtr::is_dummy(self, list)`. -/
def isDummy (s : St T) (a : Nat) : Bool := s.dummy = some a

/-- `LinkedList::init`: lazily allocate the sentinel. -/
def init (s : St T) : Nat × St T :=
  match s.dummy with
  | some d => (d, s)
  | none =>
    let (d, h) := s.heap.allocDummy
    (d, { s with heap := h, dummy := some d })

/-- `LinkedList::len`. -/
def length (s : St T) : Nat := s.len

/-- `LinkedList::is_empty`. -/
def isEmpty (s : St T) : Bool := s.len = 0

/-- `LinkedList::push_front`. -/
def pushFront (s : St T) (elem : T) : St T :=
  let (d, s₁) := s.init
  let head := (s₁.heap.mem d).next
  let (n, h₂) := s₁.heap.allocNode d (some elem) head
  let h₃ := h₂.setPrev head n
  let h₄ := h₃.setNext d n
  { s₁ with heap := h₄, len := satAdd s₁.len 1 }

/-- `LinkedList::push_back`. -/
def pushBack (s : St T) (elem : T) : St T :=
  let (d, s₁) := s.init
  let tail := (s₁.heap.mem d).prev
  let (n, h₂) := s₁.heap.allocNode tail (some elem) d
  let h₃ := h₂.setNext tail n
  let h₄ := h₃.setPrev d n
  { s₁ with heap := h₄, len := satAdd s₁.len 1 }

/-- `NodePtr::dealloc(self, list)`: `None` if `self` is the sentinel,
otherwise free the node and return `(prev, item, next)`. -/
def nodeDealloc [Inhabited T] (s : St T) (a : Nat) :
    Option ((Nat × T × Nat) × St T) :=
  if s.isDummy a then none
  else
    let (nd, h) := s.heap.dealloc a
    some ((nd.prev, assumeInit nd.item, nd.next), { s with heap := h })

/-- `LinkedList::pop_front`. -/
def popFront [Inhabited T] (s : St T) : Option T × St T :=
  match s.dummy with
  | none => (none, s)
  | some d =>
    match s.nodeDealloc ((s.heap.mem d).next) with
    | none => (none, s)
    | some ((_, elem, newHead), s₁) =>
      let h₂ := s₁.heap.setNext d newHead
      let h₃ := h₂.setPrev newHead d
      (some elem, { s₁ with heap := h₃, len := satSub s₁.len 1 })

/-- `LinkedList::pop_back`. -/
def popBack [Inhabited T] (s : St T) : Option T × St T :=
  match s.dummy with
  | none => (none, s)
  | some d =>
    match s.nodeDealloc ((s.heap.mem d).prev) with
    | none => (none, s)
    | some ((newTail, elem, _), s₁) =>
      let h₂ := s₁.heap.setPrev d newTail
      let h₃ := h₂.setNext newTail d
      (some elem, { s₁ with heap := h₃, len := satSub s₁.len 1 })

/-- `NodePtr::get(self, list)`: `None` at the sentinel, otherwise the
payload behind the reference. -/
def getAt [Inhabited T] (s : St T) (a : Nat) : Option T :=
  if s.isDummy a then none else some (assumeInit (s.heap.mem a).item)

/-- `LinkedList::front`. -/
def front [Inhabited T] (s : St T) : Option T :=
  match s.dummy with
  | none => none
  | some d => s.getAt ((s.heap.mem d).next)

/-- `LinkedList::back`. -/
def back [Inhabited T] (s : St T) : Option T :=
  match s.dummy with
  | none => none
  | some d => s.getAt ((s.heap.mem d).prev)

/-- The loop body of `LinkedList::clear`:
`while ptr != dummy { let Node { next, .. } = ptr.dealloc_raw(); ptr = next }`.
Fuel bounds the iteration count (the heap holds fewer than `fresh` cells, so
on well-formed states the fuel is never exhausted). -/
def clearLoop (d : Nat) : Nat → Nat → Heap T → Heap T
  | _, 0, h => h
  | ptr, fuel + 1, h =>
    if ptr = d then h
    else
      let (nd, h₁) := h.dealloc ptr
      clearLoop d nd.next fuel h₁

/-- `LinkedList::clear` (mod.rs lines 45–53).  Note: the source walks the
ring deallocating every non-sentinel node but never touches `self.len` and
never re-links the sentinel to itself. -/
def clear (s : St T) : St T :=
  match s.dummy with
  | none => s
  | some d =>
    { s with heap := clearLoop d ((s.heap.mem d).next) s.heap.fresh s.heap }

end St

/-! ## Cursor layer (cursor.rs) -/

/-- `RawCursor<T>`: current node handle (or `None` before the list was ever
initialized) and the logical index. -/
structure RawCursor where
  node : Option Nat
  index : Nat
deriving Repr, DecidableEq

namespace RawCursor

variable {T : Type}

/-- `RawCursor::new(list)`: start at the ghost position. -/
def new (s : St T) : RawCursor := ⟨s.dummy, s.len⟩

/-- `RawCursor::set_index`: assign, then reduce modulo `len + 1` only when
the value exceeds `len`. -/
def setIndex (c : RawCursor) (i : Nat) (s : St T) : RawCursor :=
  if i > s.len then { c with index := i % (s.len + 1) }
  else { c with index := i }

/-- `RawCursor::index_add`. -/
def indexAdd (c : RawCursor) (inc : Nat) (s : St T) : RawCursor :=
  c.setIndex (wrapAdd c.index inc) s

/-- `RawCursor::index_sub`. -/
def indexSub (c : RawCursor) (dec : Nat) (s : St T) : RawCursor :=
  c.setIndex (wrapSub c.index dec) s

/-- `RawCursor::index(list)`: `None` exactly when the stored index equals
`len`. -/
def idx (c : RawCursor) (s : St T) : Option Nat :=
  if c.index ≠ s.len then some c.index else none

/-- `RawCursor::move_next`. -/
def moveNext (c : RawCursor) (s : St T) : RawCursor :=
  match c.node with
  | none => c
  | some n => indexAdd { c with node := some ((s.heap.mem n).next) } 1 s

/-- `RawCursor::move_prev`. -/
def movePrev (c : RawCursor) (s : St T) : RawCursor :=
  match c.node with
  | none => c
  | some n => indexSub { c with node := some ((s.heap.mem n).prev) } 1 s

/-- `RawCursor::current`. -/
def current [Inhabited T] (c : RawCursor) (s : St T) : Option T :=
  match c.node with
  | none => none
  | some n => s.getAt n

/-- `RawCursor::peek_next`. -/
def peekNext [Inhabited T] (c : RawCursor) (s : St T) : Option T :=
  match c.node with
  | none => none
  | some n => s.getAt ((s.heap.mem n).next)

/-- `RawCursor::peek_prev`. -/
def peekPrev [Inhabited T] (c : RawCursor) (s : St T) : Option T :=
  match c.node with
  | none => none
  | some n => s.getAt ((s.heap.mem n).prev)

/-- `RawCursor::init`: lazily materialize the cursor's node handle (and the
list's sentinel). -/
def cinit (c : RawCursor) (s : St T) : Nat × RawCursor × St T :=
  match c.node with
  | some n => (n, c, s)
  | none =>
    let (d, s₁) := s.init
    (d, { c with node := some d }, s₁)

end RawCursor

namespace St

variable {T : Type}

/-- `NodePtr::splice_after(self, front, back, len, list)`. -/
def spliceAfter (s : St T) (a front back : Nat) (len : Nat) : St T :=
  let next := (s.heap.mem a).next
  let h₁ := s.heap.link a front
  let h₂ := h₁.link back next
  { s with heap := h₂, len := satAdd s.len len }

/-- `NodePtr::splice_before(self, front, back, len, list)`. -/
def spliceBefore (s : St T) (a front back : Nat) (len : Nat) : St T :=
  let prev := (s.heap.mem a).prev
  let h₁ := s.heap.link prev front
  let h₂ := h₁.link back a
  { s with heap := h₂, len := satAdd s.len len }

/-- `NodePtr::insert_after(self, item, list)`: allocate a dangling one-node
run and splice it in after `self`. -/
def nodeInsertAfter (s : St T) (a : Nat) (item : T) : St T :=
  let (n, h) := s.heap.allocNode danglingAddr (some item) danglingAddr
  spliceAfter { s with heap := h } a n n 1

/-- `NodePtr::insert_before(self, item, list)`. -/
def nodeInsertBefore (s : St T) (a : Nat) (item : T) : St T :=
  let (n, h) := s.heap.allocNode danglingAddr (some item) danglingAddr
  spliceBefore { s with heap := h } a n n 1

/-- The consuming iteration of `slice_off`: deallocate and yield `k` nodes
following next-links from `front`. -/
def drainRun [Inhabited T] : Nat → Nat → St T → List T × St T
  | _, 0, s => ([], s)
  | front, k + 1, s =>
    let nd := s.heap.mem front
    let s₁ : St T := { s with heap := { s.heap with alloc := s.heap.alloc.erase front } }
    let (xs, s₂) := drainRun nd.next k s₁
    (assumeInit nd.item :: xs, s₂)

/-- `NodePtr::slice_off(front, back, len, list)`: unlink the run in one
step, decrement the length, then consume the run's payloads (the source
returns the consuming iterator; the embedding materializes it). -/
def sliceOff [Inhabited T] (s : St T) (front back : Nat) (k : Nat) :
    List T × St T :=
  let h₁ := s.heap.link ((s.heap.mem front).prev) ((s.heap.mem back).next)
  drainRun front k { s with heap := h₁, len := satSub s.len k }

/-- `NodePtr::pop_unchecked(self, list)` =
`slice_off(self, self, 1, list).next().unwrap()`. -/
def popUnchecked [Inhabited T] (s : St T) (a : Nat) : T × St T :=
  let (xs, s₁) := s.sliceOff a a 1
  (xs.headI, s₁)

/-- `NodePtr::pop(self, list)`: `None` at the sentinel. -/
def nodePop [Inhabited T] (s : St T) (a : Nat) : Option (T × St T) :=
  if s.isDummy a then none else some (s.popUnchecked a)

end St

namespace RawCursor

variable {T : Type}

/-- `RawCursor::insert_after` (cursor.rs lines 90–97). -/
def insertAfter (c : RawCursor) (s : St T) (item : T) : RawCursor × St T :=
  let (n, c₁, s₁) := c.cinit s
  let s₂ := s₁.nodeInsertAfter n item
  if s₂.isDummy n then (c₁.indexAdd 1 s₂, s₂) else (c₁, s₂)

/-- `RawCursor::insert_before` (cursor.rs lines 99–106). -/
def insertBefore (c : RawCursor) (s : St T) (item : T) : RawCursor × St T :=
  let (n, c₁, s₁) := c.cinit s
  let s₂ := s₁.nodeInsertBefore n item
  if s₂.isDummy n then (c₁, s₂) else (c₁.indexAdd 1 s₂, s₂)

/-- `RawCursor::remove_current` (cursor.rs lines 108–115). -/
def removeCurrent [Inhabited T] (c : RawCursor) (s : St T) :
    Option T × RawCursor × St T :=
  match c.node with
  | none => (none, c, s)
  | some n =>
    let next := (s.heap.mem n).next
    match s.nodePop n with
    | none => (none, c, s)
    | some (item, s₁) => (some item, { c with node := some next }, s₁)

end RawCursor

/-! ## Public API surface (receiver modes, transcribed from signatures)

Claim C4 is about Rust's aliasing discipline; its decidable core is the
receiver mode of each public operation that hands out a mutable payload
reference.  The table below transcribes the signatures of the public
inherent methods of `LinkedList`, `Cursor`, `CursorMut` and the iterator
types, exactly as written in the source. -/

/-- Receiver mode of a method, as written in its signature. -/
inductive Receiver where
  | shared     -- `&self`
  | exclusive  -- `&mut self`
  | owned      -- `self`
deriving Repr, DecidableEq

/-- Public operations of the crate's `sixth` module that touch payloads. -/
inductive PubFn where
  | front | back | frontMut | backMut
  | iter | iterMut
  | cursorCurrent | cursorPeekNext | cursorPeekPrev
  | cursorMutCurrent | cursorMutPeekNext | cursorMutPeekPrev
  | cursorMutInsertAfter | cursorMutInsertBefore | cursorMutRemoveCurrent
deriving Repr, DecidableEq

/-- Receiver mode of each public operation, transcribed from the source
signatures (mod.rs 95–117, cursor.rs 139–224).  In particular
`pub fn front_mut(&self) -> Option<&mut T>` and
`pub fn back_mut(&self) -> Option<&mut T>` (mod.rs lines 99 and 107) take
`&self`. -/
def receiver : PubFn → Receiver
  | .front => .shared
  | .back => .shared
  | .frontMut => .shared
  | .backMut => .shared
  | .iter => .shared
  | .iterMut => .exclusive
  | .cursorCurrent => .shared
  | .cursorPeekNext => .shared
  | .cursorPeekPrev => .shared
  | .cursorMutCurrent => .exclusive
  | .cursorMutPeekNext => .exclusive
  | .cursorMutPeekPrev => .exclusive
  | .cursorMutInsertAfter => .exclusive
  | .cursorMutInsertBefore => .exclusive
  | .cursorMutRemoveCurrent => .exclusive

/-- Whether the operation yields a mutable reference (`&mut T`) to a stored
payload, transcribed from the return types in the source. -/
def yieldsMutPayload : PubFn → Bool
  | .frontMut => true
  | .backMut => true
  | .iterMut => true
  | .cursorMutCurrent => true
  | .cursorMutPeekNext => true
  | .cursorMutPeekPrev => true
  | _ => false

/-! ## Ring abstraction

`chain2 h a l` says that following next-links from `a` passes exactly
through `l`, with matching prev back-links: `links h u v` for every
consecutive pair of `a :: l`.  A well-formed list is a ring
`d → ns… → d`. -/

/-- One doubly-linked edge: `u.next = v` and `v.prev = u`. -/
def links {T : Type} (h : Heap T) (u v : Nat) : Prop :=
  (h.mem u).next = v ∧ (h.mem v).prev = u

instance {T : Type} (h : Heap T) (u v : Nat) : Decidable (links h u v) := by
  unfold links; infer_instance

/-- Doubly-linked chain from `a` through the nodes of `l` in order. -/
def chain2 {T : Type} (h : Heap T) : Nat → List Nat → Prop
  | _, [] => True
  | a, x :: xs => links h a x ∧ chain2 h x xs

instance chain2.dec {T : Type} (h : Heap T) : (a : Nat) → (l : List Nat) →
    Decidable (chain2 h a l)
  | _, [] => .isTrue trivial
  | _, x :: xs =>
    haveI := chain2.dec h x xs
    inferInstanceAs (Decidable (_ ∧ _))

/-- The circular ring of a sentinel list: `d`, then the real nodes `ns`,
then back to `d`. -/
def Ring {T : Type} (h : Heap T) (d : Nat) (ns : List Nat) : Prop :=
  chain2 h d (ns ++ [d])

instance {T : Type} (h : Heap T) (d : Nat) (ns : List Nat) :
    Decidable (Ring h d ns) :=
  chain2.dec h d (ns ++ [d])

/-- Last element of `a :: l`. -/
def lastD (a : Nat) : List Nat → Nat
  | [] => a
  | x :: xs => lastD x xs

/-- First element of `l ++ [dflt]`. -/
def firstD (dflt : Nat) : List Nat → Nat
  | [] => dflt
  | x :: _ => x

/-- Follow a next-link. -/
def nextF {T : Type} (h : Heap T) (a : Nat) : Nat := (h.mem a).next

/-- Follow a prev-link. -/
def prevF {T : Type} (h : Heap T) (a : Nat) : Nat := (h.mem a).prev

/-- The payload stored at a node (junk if uninitialized). -/
def payload {T : Type} [Inhabited T] (h : Heap T) (n : Nat) : T :=
  St.assumeInit (h.mem n).item

/-- Payloads of a list of nodes. -/
def pays {T : Type} [Inhabited T] (h : Heap T) (ns : List Nat) : List T :=
  ns.map (payload h)

/-- Well-formedness of a list state with ring nodes `ns`: either never
initialized (no sentinel, `len = 0`), or the sentinel anchors the ring
`d :: ns`, `len` counts the real nodes, all ring addresses are distinct and
below the fresh counter. -/
def StWF {T : Type} (s : St T) (ns : List Nat) : Prop :=
  match s.dummy with
  | none => ns = [] ∧ s.len = 0
  | some d =>
    Ring s.heap d ns ∧ s.len = ns.length ∧ (d :: ns).Nodup ∧
      ∀ n ∈ d :: ns, n < s.heap.fresh

instance {T : Type} (s : St T) (ns : List Nat) : Decidable (StWF s ns) :=
  match hd : s.dummy with
  | none => decidable_of_iff (ns = [] ∧ s.len = 0) (by simp [StWF, hd])
  | some d =>
    decidable_of_iff
      (Ring s.heap d ns ∧ s.len = ns.length ∧ (d :: ns).Nodup ∧
        ∀ n ∈ d :: ns, n < s.heap.fresh)
      (by simp [StWF, hd])

/-- Validity of a raw cursor against a ring: an absent handle only on a
never-initialized list, otherwise a handle into the ring. -/
def CursorOk {T : Type} (c : RawCursor) (s : St T) (ns : List Nat) : Prop :=
  match c.node, s.dummy with
  | none, none => True
  | some n, some d => n ∈ d :: ns
  | _, _ => False

/-! ## Iteration layer (iter.rs) -/

/-- `RawIter<T>`: front handle, back handle, remaining count. -/
structure RawIterSt where
  front : Nat
  back : Nat
  len : Nat
deriving Repr, DecidableEq

namespace St

variable {T : Type}

/-- `LinkedList::raw_iter`. -/
def rawIter (s : St T) : Option RawIterSt :=
  s.dummy.map (fun d => ⟨nextF s.heap d, prevF s.heap d, s.len⟩)

end St

namespace RawIterSt

variable {T : Type}

/-- `RawIter::next`: yield the front handle after advancing past it. -/
def next (it : RawIterSt) (h : Heap T) : Option (Nat × RawIterSt) :=
  if it.len = 0 then none
  else some (it.front, ⟨nextF h it.front, it.back, it.len - 1⟩)

/-- `RawIter::next_back`. -/
def nextBack (it : RawIterSt) (h : Heap T) : Option (Nat × RawIterSt) :=
  if it.len = 0 then none
  else some (it.back, ⟨it.front, prevF h it.back, it.len - 1⟩)

/-- State after `k` calls to `next`. -/
def stepF (h : Heap T) : Nat → RawIterSt → RawIterSt
  | 0, it => it
  | k + 1, it =>
    match it.next h with
    | none => it
    | some (_, it') => stepF h k it'

end RawIterSt

/-- Addresses yielded by `len`-fold repetition of `RawIter::next` starting
from `front` (the heap does not change during shared iteration). -/
def collectFwdA {T : Type} (h : Heap T) : Nat → Nat → List Nat
  | _, 0 => []
  | f, k + 1 => f :: collectFwdA h (nextF h f) k

/-- Addresses yielded by repeated `RawIter::next_back`. -/
def collectBwdA {T : Type} (h : Heap T) : Nat → Nat → List Nat
  | _, 0 => []
  | b, k + 1 => b :: collectBwdA h (prevF h b) k

namespace St

variable {T : Type}

/-- Full consumption of `Iter` (forward): the payloads yielded by calling
`Iter::next` until it returns `None`. -/
def iterFwd [Inhabited T] (s : St T) : List T :=
  match s.rawIter with
  | none => []
  | some it => pays s.heap (collectFwdA s.heap it.front it.len)

/-- Full consumption of `Iter` backward (`next_back` until `None`). -/
def iterBwd [Inhabited T] (s : St T) : List T :=
  match s.rawIter with
  | none => []
  | some it => pays s.heap (collectBwdA s.heap it.back it.len)

/-- `ExactSizeIterator::len` of `Iter`/`IterMut`. -/
def iterLen (s : St T) : Nat :=
  match s.rawIter with
  | none => 0
  | some it => it.len

/-- List contents as observed by full forward iteration. -/
def toList [Inhabited T] (s : St T) : List T := s.iterFwd

/-- `NodePtr::slice_off_as_list(front, back, len, list)` (node.rs 206–219):
unlink the run, then wrap it behind a freshly allocated sentinel.  Returns
the remainder list and the new list; both share the final heap. -/
def sliceOffAsList (s : St T) (front back : Nat) (k : Nat) : St T × St T :=
  let h₁ := s.heap.link (prevF s.heap front) (nextF s.heap back)
  let sA : St T := { s with heap := h₁, len := satSub s.len k }
  let (d, h₂) := sA.heap.allocDummy
  let sB : St T := (St.spliceAfter { heap := h₂, dummy := some d, len := 0 } d front back k)
  ({ sA with heap := sB.heap }, sB)

end St

/-! ## DrainFilter (iter.rs 81–162, 194–212) -/

/-- `DrainFilter<T, F>`: raw iterator, retained count, and the borrowed
list.  The predicate receives the payload by mutable reference; it is
modelled as `T → Bool × T` (decision plus possibly-updated payload). -/
structure DrainSt (T : Type) where
  inner : Option RawIterSt
  retained : Nat
  st : St T

namespace DrainSt

variable {T : Type}

/-- `DrainFilter::new`. -/
def new (s : St T) : DrainSt T := ⟨s.rawIter, 0, s⟩

/-- `DrainFilter::size_hint` (iter.rs 159–161):
`(0, Some(self.list.len - self.retained))`. -/
def sizeHint (d : DrainSt T) : Nat × Option Nat :=
  (0, some (d.st.len - d.retained))

end DrainSt

/-- The `for ptr in self.inner.as_mut()?` loop of `DrainFilter::next`:
evaluate the predicate against the payload (writing any update back), pop
and yield on `true`, bump `retained` and continue on `false`.  Fuel equals
the iterator's remaining count, which bounds the loop exactly. -/
def drainLoopF {T : Type} [Inhabited T] (pred : T → Bool × T) :
    Nat → RawIterSt → Nat → St T → Option T × RawIterSt × Nat × St T
  | 0, it, r, s => (none, it, r, s)
  | fuel + 1, it, r, s =>
    match it.next s.heap with
    | none => (none, it, r, s)
    | some (ptr, it') =>
      let res := pred (payload s.heap ptr)
      let s₁ : St T := { s with heap := s.heap.setItem ptr (some res.2) }
      if res.1 then
        let (x, s₂) := s₁.popUnchecked ptr
        (some x, it', r, s₂)
      else drainLoopF pred fuel it' (satAdd r 1) s₁

/-- The analogous loop of `DrainFilter::next_back` (over `rev()`). -/
def drainLoopB {T : Type} [Inhabited T] (pred : T → Bool × T) :
    Nat → RawIterSt → Nat → St T → Option T × RawIterSt × Nat × St T
  | 0, it, r, s => (none, it, r, s)
  | fuel + 1, it, r, s =>
    match it.nextBack s.heap with
    | none => (none, it, r, s)
    | some (ptr, it') =>
      let res := pred (payload s.heap ptr)
      let s₁ : St T := { s with heap := s.heap.setItem ptr (some res.2) }
      if res.1 then
        let (x, s₂) := s₁.popUnchecked ptr
        (some x, it', r, s₂)
      else drainLoopB pred fuel it' (satAdd r 1) s₁

namespace DrainSt

variable {T : Type}

/-- `DrainFilter::next`. -/
def next [Inhabited T] (pred : T → Bool × T) (d : DrainSt T) :
    Option T × DrainSt T :=
  match d.inner with
  | none => (none, d)
  | some it =>
    let r := drainLoopF pred it.len it d.retained d.st
    (r.1, ⟨some r.2.1, r.2.2.1, r.2.2.2⟩)

/-- `DrainFilter::next_back`. -/
def nextBack [Inhabited T] (pred : T → Bool × T) (d : DrainSt T) :
    Option T × DrainSt T :=
  match d.inner with
  | none => (none, d)
  | some it =>
    let r := drainLoopB pred it.len it d.retained d.st
    (r.1, ⟨some r.2.1, r.2.2.1, r.2.2.2⟩)

/-- All payloads yielded by repeatedly calling `next` (fuel-bounded). -/
def collect [Inhabited T] (pred : T → Bool × T) :
    Nat → DrainSt T → List T
  | 0, _ => []
  | fuel + 1, d =>
    match d.next pred with
    | (none, _) => []
    | (some x, d') => x :: collect pred fuel d'

/-- The drain-filter invariant: the ring decomposes into already-visited
kept nodes `kf` (front side), unvisited nodes `u`, and kept nodes `kb`
(back side); the raw iterator spans exactly `u` and `retained` counts the
kept nodes. -/
def WF [Inhabited T] (dst : DrainSt T) (kf u kb : List Nat) : Prop :=
  ∃ d it, dst.st.dummy = some d ∧ dst.inner = some it ∧
    StWF dst.st (kf ++ u ++ kb) ∧ it.len = u.length ∧
    dst.retained = kf.length + kb.length ∧
    ∀ hu : u ≠ [], it.front = u.head hu ∧ it.back = u.getLast hu

end DrainSt

/-! ## Operation alphabet and reachable states (for the ring invariant) -/

/-- The mutating operations of the claim "any sequence of `push_front`,
`push_back`, `insert_*`, `remove_*` and `splice_*` calls".  Cursor-based
operations carry the number of `move_next` steps performed from a fresh
cursor before the call (this reaches every ring position); `sliceOff`
carries the start position and run length of the contiguous run. -/
inductive Op (T : Type) where
  | pushFront (x : T)
  | pushBack (x : T)
  | popFront
  | popBack
  | insertAfter (moves : Nat) (x : T)
  | insertBefore (moves : Nat) (x : T)
  | removeCurrent (moves : Nat)
  | sliceOff (i k : Nat)
  | sliceOffAsList (i k : Nat)

/-- A fresh cursor after `m` `move_next` calls. -/
def cursorAtMoves {T : Type} (s : St T) (m : Nat) : RawCursor :=
  (fun c => c.moveNext s)^[m] (RawCursor.new s)

/-- Address of ring position `i` (position `len` is the sentinel again). -/
def posAddr {T : Type} (s : St T) (d : Nat) (i : Nat) : Nat :=
  (nextF s.heap)^[i + 1] d

/-- Apply one operation to a list state (discarding returned values). -/
def Op.apply {T : Type} [Inhabited T] : Op T → St T → St T
  | .pushFront x, s => s.pushFront x
  | .pushBack x, s => s.pushBack x
  | .popFront, s => (s.popFront).2
  | .popBack, s => (s.popBack).2
  | .insertAfter m x, s => ((cursorAtMoves s m).insertAfter s x).2
  | .insertBefore m x, s => ((cursorAtMoves s m).insertBefore s x).2
  | .removeCurrent m, s => ((cursorAtMoves s m).removeCurrent s).2.2
  | .sliceOff i k, s =>
    match s.dummy with
    | none => s
    | some d =>
      let f := posAddr s d i
      (s.sliceOff f ((nextF s.heap)^[k - 1] f) k).2
  | .sliceOffAsList i k, s =>
    match s.dummy with
    | none => s
    | some d =>
      let f := posAddr s d i
      (s.sliceOffAsList f ((nextF s.heap)^[k - 1] f) k).1

/-- Side conditions under which an operation is performed: slicing must
name a contiguous run of real nodes (the source documents a run containing
the sentinel as undefined behaviour), and insertions must not overflow the
length counter (models allocator finiteness; `len` uses saturating
arithmetic). -/
def Op.guard {T : Type} : Op T → St T → Prop
  | .pushFront _, s => s.len + 1 < USIZE
  | .pushBack _, s => s.len + 1 < USIZE
  | .insertAfter _ _, s => s.len + 1 < USIZE
  | .insertBefore _ _, s => s.len + 1 < USIZE
  | .popFront, _ => True
  | .popBack, _ => True
  | .removeCurrent _, _ => True
  | .sliceOff i k, s => 0 < k ∧ i + k ≤ s.len
  | .sliceOffAsList i k, s => 0 < k ∧ i + k ≤ s.len

/-- States reachable from `LinkedList::new()` by guarded operations. -/
inductive Reachable {T : Type} [Inhabited T] : St T → Prop where
  | new : Reachable (St.new T)
  | step (s : St T) (op : Op T) (h : Reachable s) (hg : op.guard s) :
      Reachable (op.apply s)

/-- A concrete two-element list, `push_front(1)` then `push_back(2)` from
`LinkedList::new()` (sentinel at address 1, elements at addresses 2 and 3). -/
def ex2 : St Nat := Op.apply (Op.pushBack 2) (Op.apply (Op.pushFront 1) (St.new Nat))

/-! ## Heap update lemmas -/

namespace Heap

variable {T : Type} (h : Heap T)

@[simp] theorem setNext_next (a b x : Nat) :
    ((h.setNext a b).mem x).next = if x = a then b else (h.mem x).next := by
  simp only [setNext, set]; split <;> rfl

@[simp] theorem setNext_prev (a b x : Nat) :
    ((h.setNext a b).mem x).prev = (h.mem x).prev := by
  simp only [setNext, set]; split <;> simp_all

@[simp] theorem setNext_item (a b x : Nat) :
    ((h.setNext a b).mem x).item = (h.mem x).item := by
  simp only [setNext, set]; split <;> simp_all

@[simp] theorem setPrev_prev (a b x : Nat) :
    ((h.setPrev a b).mem x).prev = if x = a then b else (h.mem x).prev := by
  simp only [setPrev, set]; split <;> rfl

@[simp] theorem setPrev_next (a b x : Nat) :
    ((h.setPrev a b).mem x).next = (h.mem x).next := by
  simp only [setPrev, set]; split <;> simp_all

@[simp] theorem setPrev_item (a b x : Nat) :
    ((h.setPrev a b).mem x).item = (h.mem x).item := by
  simp only [setPrev, set]; split <;> simp_all

@[simp] theorem setItem_item (a : Nat) (v : Option T) (x : Nat) :
    ((h.setItem a v).mem x).item = if x = a then v else (h.mem x).item := by
  simp only [setItem, set]; split <;> rfl

@[simp] theorem setItem_next (a : Nat) (v : Option T) (x : Nat) :
    ((h.setItem a v).mem x).next = (h.mem x).next := by
  simp only [setItem, set]; split <;> simp_all

@[simp] theorem setItem_prev (a : Nat) (v : Option T) (x : Nat) :
    ((h.setItem a v).mem x).prev = (h.mem x).prev := by
  simp only [setItem, set]; split <;> simp_all

@[simp] theorem link_next (a b x : Nat) :
    ((h.link a b).mem x).next = if x = a then b else (h.mem x).next := by
  simp [link]

@[simp] theorem link_prev (a b x : Nat) :
    ((h.link a b).mem x).prev = if x = b then a else (h.mem x).prev := by
  simp [link]

@[simp] theorem link_item (a b x : Nat) :
    ((h.link a b).mem x).item = (h.mem x).item := by
  simp [link]

@[simp] theorem setNext_fresh (a b : Nat) : (h.setNext a b).fresh = h.fresh := rfl
@[simp] theorem setPrev_fresh (a b : Nat) : (h.setPrev a b).fresh = h.fresh := rfl
@[simp] theorem setItem_fresh (a : Nat) (v : Option T) :
    (h.setItem a v).fresh = h.fresh := rfl
@[simp] theorem link_fresh (a b : Nat) : (h.link a b).fresh = h.fresh := rfl

@[simp] theorem allocNode_fst (p : Nat) (i : Option T) (n : Nat) :
    (h.allocNode p i n).1 = h.fresh := rfl

@[simp] theorem allocNode_mem (p : Nat) (i : Option T) (n x : Nat) :
    ((h.allocNode p i n).2).mem x = if x = h.fresh then ⟨p, n, i⟩ else h.mem x := rfl

@[simp] theorem allocNode_fresh (p : Nat) (i : Option T) (n : Nat) :
    ((h.allocNode p i n).2).fresh = h.fresh + 1 := rfl

@[simp] theorem allocDummy_fst : (h.allocDummy).1 = h.fresh := rfl

@[simp] theorem allocDummy_mem (x : Nat) :
    ((h.allocDummy).2).mem x =
      if x = h.fresh then (⟨h.fresh, h.fresh, none⟩ : Node T) else h.mem x := by
  simp only [allocDummy, allocNode, setNext, setPrev, set]
  split <;> simp_all

@[simp] theorem allocDummy_fresh : ((h.allocDummy).2).fresh = h.fresh + 1 := rfl

@[simp] theorem dealloc_mem (a x : Nat) : ((h.dealloc a).2).mem x = h.mem x := rfl

@[simp] theorem dealloc_fresh (a : Nat) : ((h.dealloc a).2).fresh = h.fresh := rfl

end Heap

/-! ## `lastD` and `chain2` lemmas -/

@[simp] theorem firstD_nil (d : Nat) : firstD d [] = d := rfl

@[simp] theorem firstD_cons (d x : Nat) (l : List Nat) :
    firstD d (x :: l) = x := rfl

theorem firstD_mem (d : Nat) (l : List Nat) : firstD d l ∈ d :: l := by
  cases l <;> simp

@[simp] theorem lastD_nil (a : Nat) : lastD a [] = a := rfl

@[simp] theorem lastD_cons (a x : Nat) (l : List Nat) :
    lastD a (x :: l) = lastD x l := rfl

theorem lastD_append (a : Nat) (l₁ l₂ : List Nat) :
    lastD a (l₁ ++ l₂) = lastD (lastD a l₁) l₂ := by
  induction l₁ generalizing a with
  | nil => rfl
  | cons x xs ih => simp [ih]

@[simp] theorem lastD_concat (a x : Nat) (l : List Nat) :
    lastD a (l ++ [x]) = x := by
  simp [lastD_append]

theorem lastD_mem (a : Nat) (l : List Nat) : lastD a l ∈ a :: l := by
  induction l generalizing a with
  | nil => simp
  | cons x xs ih =>
    rcases List.mem_cons.1 (ih x) with h | h
    · simp [h]
    · simp [List.mem_cons_of_mem, h]

section Chain2

variable {T : Type} {h h' : Heap T}

@[simp] theorem chain2_nil (a : Nat) : chain2 h a [] := trivial

@[simp] theorem chain2_cons (a x : Nat) (l : List Nat) :
    chain2 h a (x :: l) ↔ links h a x ∧ chain2 h x l := Iff.rfl

theorem chain2_split (l₁ l₂ : List Nat) (a : Nat) :
    chain2 h a (l₁ ++ l₂) ↔ chain2 h a l₁ ∧ chain2 h (lastD a l₁) l₂ := by
  induction l₁ generalizing a with
  | nil => simp
  | cons x xs ih => simp [ih, and_assoc]

/-- Frame rule: a chain survives any heap change that does not touch the
next-fields of its link sources nor the prev-fields of its link targets. -/
theorem chain2_frame :
    ∀ (l : List Nat) (a : Nat),
      (∀ u ∈ a :: l.dropLast, (h'.mem u).next = (h.mem u).next) →
      (∀ u ∈ l, (h'.mem u).prev = (h.mem u).prev) →
      chain2 h a l → chain2 h' a l
  | [], _, _, _, _ => trivial
  | [x], a, hn, hp, hc => by
    refine ⟨⟨?_, ?_⟩, trivial⟩
    · rw [hn a (by simp), hc.1.1]
    · rw [hp x (by simp), hc.1.2]
  | x :: y :: ys, a, hn, hp, hc => by
    refine ⟨⟨?_, ?_⟩, ?_⟩
    · rw [hn a (by simp), hc.1.1]
    · rw [hp x (by simp), hc.1.2]
    · refine chain2_frame (y :: ys) x (fun u hu => hn u ?_) (fun u hu => hp u ?_) hc.2
      · rcases List.mem_cons.1 hu with h1 | h1
        · subst h1; simp [List.dropLast]
        · simp only [List.dropLast, List.mem_cons] at *
          tauto
      · exact List.mem_cons_of_mem _ hu

theorem chain2_srcs :
    ∀ (l : List Nat) (a : Nat), l ≠ [] → chain2 h a l →
      ∀ u ∈ a :: l.dropLast, links h u (nextF h u)
  | [], _, hne, _, u, hu => absurd rfl hne
  | [x], a, _, hc, u, hu => by
    simp [List.dropLast] at hu
    subst hu
    have := hc.1
    simpa [nextF, this.1] using this
  | x :: y :: ys, a, _, hc, u, hu => by
    rcases List.mem_cons.1 hu with h1 | h1
    · subst h1
      have := hc.1
      simpa [nextF, this.1] using this
    · refine chain2_srcs (y :: ys) x (by simp) hc.2 u ?_
      simp only [List.dropLast, List.mem_cons] at *
      tauto

theorem chain2_tgts :
    ∀ (l : List Nat) (a : Nat), chain2 h a l →
      ∀ u ∈ l, links h (prevF h u) u
  | [], _, _, u, hu => by simp at hu
  | x :: xs, a, hc, u, hu => by
    rcases List.mem_cons.1 hu with h1 | h1
    · subst h1
      have := hc.1
      simpa [prevF, this.2] using this
    · exact chain2_tgts xs x hc.2 u h1

/-- Sources of `chain2 h a l` point to their successors inside `l`. -/
theorem chain2_next_mem :
    ∀ (l : List Nat) (a : Nat), l ≠ [] → chain2 h a l →
      ∀ u ∈ a :: l.dropLast, nextF h u ∈ l
  | [], _, hne, _, u, hu => absurd rfl hne
  | [x], a, _, hc, u, hu => by
    simp [List.dropLast] at hu
    subst hu
    simp [nextF, hc.1.1]
  | x :: y :: ys, a, _, hc, u, hu => by
    rcases List.mem_cons.1 hu with h1 | h1
    · subst h1
      simp [nextF, hc.1.1]
    · have h2 := chain2_next_mem (y :: ys) x (by simp) hc.2 u ?_
      · exact List.mem_cons_of_mem _ h2
      · simp only [List.dropLast, List.mem_cons] at *
        tauto

theorem chain2_iterate_next :
    ∀ (l : List Nat) (a : Nat), chain2 h a l →
      (nextF h)^[l.length] a = lastD a l
  | [], _, _ => rfl
  | x :: xs, a, hc => by
    rw [List.length_cons, Function.iterate_succ_apply]
    have h1 : nextF h a = x := hc.1.1
    rw [h1, chain2_iterate_next xs x hc.2, lastD_cons]

theorem chain2_iterate_prev :
    ∀ (l : List Nat) (a : Nat), chain2 h a l →
      (prevF h)^[l.length] (lastD a l) = a
  | [], _, _ => rfl
  | x :: xs, a, hc => by
    rw [List.length_cons, Function.iterate_succ_apply', lastD_cons,
      chain2_iterate_prev xs x hc.2]
    exact hc.1.2

/-- Walking next-links from the successor of `a` for `k` steps collects the
first `k` chain nodes. -/
theorem chain2_collectF :
    ∀ (l : List Nat) (a : Nat), chain2 h a l →
      ∀ k, k ≤ l.length → collectFwdA h (nextF h a) k = l.take k
  | l, a, _, 0, _ => by simp [collectFwdA]
  | [], _, _, k + 1, hk => by simp at hk
  | x :: xs, a, hc, k + 1, hk => by
    have h1 : nextF h a = x := hc.1.1
    rw [h1, collectFwdA, List.take_succ_cons,
      chain2_collectF xs x hc.2 k (by simpa using hk)]

/-- Walking prev-links from the last chain node for `k` steps collects the
reversed chain (including `a` at the very end). -/
theorem chain2_collectB (l : List Nat) (a : Nat) (hc : chain2 h a l) :
    ∀ k, k ≤ l.length → collectBwdA h (lastD a l) k = (l.reverse ++ [a]).take k := by
  induction l using List.reverseRecOn generalizing a with
  | nil =>
    intro k hk
    have hk0 : k = 0 := Nat.le_zero.mp hk
    subst hk0
    simp [collectBwdA]
  | append_singleton l' z ih =>
    intro k hk
    cases k with
    | zero => simp [collectBwdA]
    | succ k =>
      have hsplit := (chain2_split l' [z] a).1 hc
      have hz : prevF h z = lastD a l' := hsplit.2.1.2
      have hk' : k ≤ l'.length := by simp at hk; omega
      rw [lastD_concat, collectBwdA, hz, ih a hsplit.1 k hk']
      have hlen : k ≤ (l'.reverse ++ [a]).length := by simp; omega
      simp [List.take_append_of_le_length hlen]

end Chain2

/-! ## Ring lemmas and splice surgeries -/

theorem lastD_not_mem_dropLast :
    ∀ (l : List Nat) (a : Nat), l.Nodup → lastD a l ∉ l.dropLast
  | [], _, _ => by simp
  | [x], _, _ => by simp [List.dropLast]
  | x :: y :: ys, a, hnd => by
    have hx : x ∉ y :: ys := (List.nodup_cons.1 hnd).1
    have ih := lastD_not_mem_dropLast (y :: ys) y (List.nodup_cons.1 hnd).2
    have hm : lastD y ys ∈ y :: ys := lastD_mem y ys
    intro hmem
    rw [lastD_cons] at hmem
    rw [show (x :: y :: ys).dropLast = x :: (y :: ys).dropLast from rfl] at hmem
    rcases List.mem_cons.1 hmem with heq | hmem2
    · exact hx (heq ▸ hm)
    · exact ih hmem2

/-- Unpack the distinctness of a ring split into three segments. -/
theorem nodup_parts {d : Nat} {p r q : List Nat}
    (hnd : (d :: (p ++ r ++ q)).Nodup) :
    (d ∉ p ∧ d ∉ r ∧ d ∉ q) ∧ (p.Nodup ∧ r.Nodup ∧ q.Nodup) ∧
    (∀ x ∈ p, x ∉ r) ∧ (∀ x ∈ p, x ∉ q) ∧ (∀ x ∈ r, x ∉ q) := by
  simp only [List.nodup_cons, List.nodup_append, List.disjoint_left,
    List.mem_append] at hnd
  obtain ⟨h1, ⟨hp, hr, hpr⟩, hq, hprq⟩ := hnd
  exact ⟨⟨fun hm => h1 (Or.inl (Or.inl hm)), fun hm => h1 (Or.inl (Or.inr hm)),
      fun hm => h1 (Or.inr hm)⟩,
    ⟨hp, hr, hq⟩, fun x hx => hpr hx, fun x hx => hprq (Or.inl hx),
    fun x hx => hprq (Or.inr hx)⟩

/-- Every handle in `d :: ns` closes some prefix `p` of the ring:
`ns = p ++ q` with the handle as the last of `d :: p`. -/
theorem mem_ring_decomp_after {d n : Nat} {ns : List Nat} (hn : n ∈ d :: ns) :
    ∃ p q, ns = p ++ q ∧ lastD d p = n := by
  rcases List.mem_cons.1 hn with h1 | h1
  · exact ⟨[], ns, rfl, h1.symm⟩
  · obtain ⟨s, t, rfl⟩ := List.append_of_mem h1
    exact ⟨s ++ [n], t, by simp, by simp⟩

/-- Every handle in `d :: ns` starts some suffix of the ring. -/
theorem mem_ring_decomp_before {d n : Nat} {ns : List Nat} (hn : n ∈ d :: ns) :
    ∃ p q, ns = p ++ q ∧ ((q = [] ∧ n = d) ∨ ∃ q', q = n :: q') := by
  rcases List.mem_cons.1 hn with h1 | h1
  · exact ⟨ns, [], by simp, Or.inl ⟨rfl, h1⟩⟩
  · obtain ⟨s, t, rfl⟩ := List.append_of_mem h1
    exact ⟨s, n :: t, rfl, Or.inr ⟨t, rfl⟩⟩

/-- The pointwise ring invariant (`n.next.prev == n` and `n.prev.next == n`)
follows from the chain representation. -/
theorem ring_pointwise {T : Type} {h : Heap T} {d : Nat} {ns : List Nat}
    (hr : Ring h d ns) :
    ∀ n ∈ d :: ns, prevF h (nextF h n) = n ∧ nextF h (prevF h n) = n := by
  intro n hn
  constructor
  · have hs := chain2_srcs (ns ++ [d]) d (by simp) hr n
      (by simpa [List.dropLast_concat] using hn)
    exact hs.2
  · have hmem : n ∈ ns ++ [d] := by
      rcases List.mem_cons.1 hn with h1 | h1
      · simp [h1]
      · exact List.mem_append_left _ h1
    have ht := chain2_tgts (ns ++ [d]) d hr n hmem
    exact ht.1

/-- Next-links never leave the ring. -/
theorem ring_next_mem {T : Type} {h : Heap T} {d : Nat} {ns : List Nat}
    (hr : Ring h d ns) : ∀ n ∈ d :: ns, nextF h n ∈ d :: ns := by
  intro n hn
  have h2 := chain2_next_mem (ns ++ [d]) d (by simp) hr n
    (by simpa [List.dropLast_concat] using hn)
  rcases List.mem_append.1 h2 with h3 | h3
  · exact List.mem_cons_of_mem _ h3
  · simp at h3
    simp [h3]

/-- Targets of a chain have their prev-link among the chain sources. -/
theorem chain2_prev_mem {T : Type} {h : Heap T} :
    ∀ (l : List Nat) (a : Nat), chain2 h a l →
      ∀ u ∈ l, prevF h u ∈ a :: l.dropLast
  | [], _, _, u, hu => by simp at hu
  | [x], a, hc, u, hu => by
    simp at hu
    subst hu
    simp [prevF, hc.1.2, List.dropLast]
  | x :: y :: ys, a, hc, u, hu => by
    rcases List.mem_cons.1 hu with h1 | h1
    · subst h1
      simp [prevF, hc.1.2]
    · have h2 := chain2_prev_mem (y :: ys) x hc.2 u h1
      rw [show (x :: y :: ys).dropLast = x :: (y :: ys).dropLast from rfl]
      rcases List.mem_cons.1 h2 with h3 | h3
      · simp [h3]
      · simp only [List.mem_cons]
        tauto

/-- Prev-links never leave the ring. -/
theorem ring_prev_mem {T : Type} {h : Heap T} {d : Nat} {ns : List Nat}
    (hr : Ring h d ns) : ∀ n ∈ d :: ns, prevF h n ∈ d :: ns := by
  intro n hn
  have hmem : n ∈ ns ++ [d] := by
    rcases List.mem_cons.1 hn with h1 | h1
    · simp [h1]
    · exact List.mem_append_left _ h1
  have h2 := chain2_prev_mem (ns ++ [d]) d hr n hmem
  simpa [List.dropLast_concat] using h2

/-- Surgery 1: unlink a nonempty contiguous run `rh :: rt` from the ring.
The single `link` of `slice_off` relinks the run's predecessor to its
successor; the remainder is again a ring and the run's interior chain
survives untouched. -/
theorem ring_unlink {T : Type} {h : Heap T} {d rh : Nat} {p rt q : List Nat}
    (hring : Ring h d (p ++ (rh :: rt) ++ q))
    (hnd : (d :: (p ++ (rh :: rt) ++ q)).Nodup) :
    Ring (h.link (prevF h rh) (nextF h (lastD rh rt))) d (p ++ q) ∧
    chain2 (h.link (prevF h rh) (nextF h (lastD rh rt))) rh rt ∧
    prevF h rh = lastD d p ∧ nextF h (lastD rh rt) = firstD d q := by
  obtain ⟨⟨hdp, hdr, hdq⟩, ⟨hpnd, hrnd, hqnd⟩, hpr, hpq, hrq⟩ := nodup_parts hnd
  have hc : chain2 h d (p ++ ((rh :: rt) ++ (q ++ [d]))) := by
    have h0 := hring
    unfold Ring at h0
    simpa [List.append_assoc] using h0
  rw [chain2_split] at hc
  obtain ⟨hcp, hc2⟩ := hc
  rw [show (rh :: rt) ++ (q ++ [d]) = rh :: (rt ++ (q ++ [d])) from rfl,
    chain2_cons] at hc2
  obtain ⟨hlink1, hc3⟩ := hc2
  rw [chain2_split] at hc3
  obtain ⟨hcr, hc4⟩ := hc3
  have hprev : prevF h rh = lastD d p := hlink1.2
  have hnext : nextF h (lastD rh rt) = firstD d q := by
    cases q with
    | nil => exact hc4.1.1
    | cons qh qt => exact hc4.1.1
  have hAmem : lastD d p ∈ d :: p := lastD_mem d p
  have hzmem : firstD d q ∈ d :: q := firstD_mem d q
  rw [hprev, hnext]
  have hAnotq : ∀ u ∈ q, u ≠ lastD d p := by
    intro u hu he
    rcases List.mem_cons.1 hAmem with h1 | h1
    · exact hdq (h1 ▸ he ▸ hu)
    · exact hpq _ h1 (he ▸ hu)
  have hAnotr : ∀ u ∈ rh :: rt, u ≠ lastD d p := by
    intro u hu he
    rcases List.mem_cons.1 hAmem with h1 | h1
    · exact hdr (h1 ▸ he ▸ hu)
    · exact hpr _ h1 (he ▸ hu)
  have hznotp : ∀ u ∈ p, u ≠ firstD d q := by
    intro u hu he
    rcases List.mem_cons.1 hzmem with h1 | h1
    · exact hdp (h1 ▸ he ▸ hu)
    · exact hpq _ hu (he ▸ h1)
  have hznotr : ∀ u ∈ rh :: rt, u ≠ firstD d q := by
    intro u hu he
    rcases List.mem_cons.1 hzmem with h1 | h1
    · exact hdr (h1 ▸ he ▸ hu)
    · exact hrq _ hu (he ▸ h1)
  refine ⟨?_, ?_, rfl, rfl⟩
  · -- the remainder ring
    unfold Ring
    rw [List.append_assoc, chain2_split]
    constructor
    · -- prefix chain
      cases p with
      | nil => trivial
      | cons p0 ps =>
        refine chain2_frame _ _ ?_ ?_ hcp
        · intro u hu
          have hune : ¬(u = lastD d (p0 :: ps)) := by
            rcases List.mem_cons.1 hu with h1 | h1
            · subst h1
              intro he
              have hm := lastD_mem p0 ps
              rw [lastD_cons] at he
              exact hdp (he ▸ hm)
            · intro he
              exact lastD_not_mem_dropLast (p0 :: ps) d hpnd (he ▸ h1)
          rw [Heap.link_next, if_neg hune]
        · intro u hu
          rw [Heap.link_prev, if_neg (hznotp u hu)]
    · -- suffix chain, re-anchored at the run's predecessor
      cases q with
      | nil =>
        refine ⟨⟨?_, ?_⟩, trivial⟩
        · simp
        · simp
      | cons qh qt =>
        refine ⟨⟨?_, ?_⟩, ?_⟩
        · simp
        · simp
        · have hq2 : chain2 h qh (qt ++ [d]) := hc4.2
          refine chain2_frame _ _ ?_ ?_ hq2
          · intro u hu
            have hu2 : u ∈ qh :: qt := by
              simpa [List.dropLast_concat] using hu
            rw [Heap.link_next, if_neg (hAnotq u hu2)]
          · intro u hu
            have hune : ¬(u = firstD d (qh :: qt)) := by
              rw [firstD_cons]
              rcases List.mem_append.1 hu with h1 | h1
              · intro he
                exact (List.nodup_cons.1 hqnd).1 (he ▸ h1)
              · simp only [List.mem_singleton] at h1
                subst h1
                intro he
                exact hdq (he ▸ List.mem_cons_self qh qt)
            rw [Heap.link_prev, if_neg hune]
  · -- the run interior survives
    refine chain2_frame _ _ ?_ ?_ hcr
    · intro u hu
      have hu2 : u ∈ rh :: rt := by
        rcases List.mem_cons.1 hu with h1 | h1
        · simp [h1]
        · exact List.mem_cons_of_mem _ ((List.dropLast_sublist rt).subset h1)
      rw [Heap.link_next, if_neg (hAnotr u hu2)]
    · intro u hu
      have hu2 : u ∈ rh :: rt := List.mem_cons_of_mem _ hu
      rw [Heap.link_prev, if_neg (hznotr u hu2)]

/-- Distinctness of the ring after inserting a disjoint duplicate-free run. -/
theorem nodup_insert_run {d : Nat} {p q rr : List Nat}
    (hnd : (d :: (p ++ q)).Nodup) (hrnd : rr.Nodup)
    (hdisj : ∀ x ∈ rr, x ∉ d :: (p ++ q)) :
    (d :: (p ++ rr ++ q)).Nodup := by
  have hdisj' : ∀ x ∈ rr, ¬(x = d ∨ x ∈ p ∨ x ∈ q) := by
    intro x hx
    have := hdisj x hx
    simp only [List.mem_cons, List.mem_append] at this
    exact this
  simp only [List.nodup_cons, List.nodup_append, List.disjoint_left,
    List.mem_append] at hnd ⊢
  obtain ⟨h1, hp, hq, hpq⟩ := hnd
  refine ⟨?_, ⟨hp, hrnd, ?_⟩, hq, ?_⟩
  · rintro ((hdp | hdr) | hdq)
    · exact h1 (Or.inl hdp)
    · exact (hdisj' d hdr) (Or.inl rfl)
    · exact h1 (Or.inr hdq)
  · intro a hap har
    exact (hdisj' a har) (Or.inr (Or.inl hap))
  · rintro a (hap | har) haq
    · exact hpq hap haq
    · exact (hdisj' a har) (Or.inr (Or.inr haq))

/-- Surgery 2: splice a well-formed disjoint run `rh :: rt` into the ring
after the node `lastD d p` (`splice_after` reads the successor first, then
performs its two `link`s). -/
theorem ring_splice_after {T : Type} {h : Heap T} {d rh : Nat}
    {p q rt : List Nat}
    (hring : Ring h d (p ++ q))
    (hnd : (d :: (p ++ q)).Nodup)
    (hchain : chain2 h rh rt)
    (hdisj : ∀ x ∈ rh :: rt, x ∉ d :: (p ++ q))
    (hrnd : (rh :: rt).Nodup) :
    Ring ((h.link (lastD d p) rh).link (lastD rh rt) (nextF h (lastD d p))) d
      (p ++ (rh :: rt) ++ q) := by
  obtain ⟨h1, ⟨hpnd, hqnd, hpq⟩⟩ : (d ∉ p ∧ d ∉ q) ∧
      (p.Nodup ∧ q.Nodup ∧ ∀ x ∈ p, x ∉ q) := by
    have h0 := hnd
    simp only [List.nodup_cons, List.nodup_append, List.disjoint_left,
      List.mem_append] at h0
    obtain ⟨ha, hb, hc, hd2⟩ := h0
    exact ⟨⟨fun hm => ha (Or.inl hm), fun hm => ha (Or.inr hm)⟩,
      hb, hc, fun x hx => hd2 hx⟩
  obtain ⟨hdp, hdq⟩ := h1
  have hc : chain2 h d (p ++ (q ++ [d])) := by
    have h0 := hring
    unfold Ring at h0
    simpa [List.append_assoc] using h0
  rw [chain2_split] at hc
  obtain ⟨hcp, hcq⟩ := hc
  have hAmem : lastD d p ∈ d :: p := lastD_mem d p
  have hrlmem : lastD rh rt ∈ rh :: rt := lastD_mem rh rt
  have hnext : nextF h (lastD d p) = firstD d q := by
    cases q with
    | nil => exact hcq.1.1
    | cons qh qt => exact hcq.1.1
  have hzmem : firstD d q ∈ d :: q := firstD_mem d q
  have hring_mem : ∀ u, u ∈ d :: p ∨ u ∈ d :: q → u ∈ d :: (p ++ q) := by
    intro u hu
    simp only [List.mem_cons, List.mem_append] at hu ⊢
    tauto
  have hArun : ∀ u ∈ rh :: rt, u ≠ lastD d p := by
    intro u hu he
    exact hdisj u hu (he ▸ hring_mem _ (Or.inl hAmem))
  have hzrun : ∀ u ∈ rh :: rt, u ≠ firstD d q := by
    intro u hu he
    exact hdisj u hu (he ▸ hring_mem _ (Or.inr hzmem))
  have hArl : ¬(lastD d p = lastD rh rt) := fun he =>
    (hArun _ hrlmem) he.symm
  have hrhz : ¬(rh = firstD d q) := hzrun rh (by simp)
  have hAnotq : ∀ u ∈ q, u ≠ lastD d p := by
    intro u hu he
    rcases List.mem_cons.1 hAmem with h2 | h2
    · exact hdq (h2 ▸ he ▸ hu)
    · exact hpq _ h2 (he ▸ hu)
  have hznotp : ∀ u ∈ p, u ≠ firstD d q := by
    intro u hu he
    rcases List.mem_cons.1 hzmem with h2 | h2
    · exact hdp (h2 ▸ he ▸ hu)
    · exact hpq _ hu (he ▸ h2)
  have hrlnot : ∀ u, u ∈ d :: (p ++ q) → u ≠ lastD rh rt := by
    intro u hu he
    exact hdisj _ hrlmem (he ▸ hu)
  have hrhnot : ∀ u, u ∈ d :: (p ++ q) → u ≠ rh := by
    intro u hu he
    exact hdisj rh (by simp) (he ▸ hu)
  rw [hnext]
  unfold Ring
  rw [List.append_assoc, List.append_assoc, chain2_split]
  constructor
  · -- prefix chain
    cases p with
    | nil => trivial
    | cons p0 ps =>
      refine chain2_frame _ _ ?_ ?_ hcp
      · intro u hu
        have humem : u ∈ d :: (p0 :: ps ++ q) := by
          rcases List.mem_cons.1 hu with h2 | h2
          · simp [h2]
          · have h5 : u ∈ p0 :: ps := (List.dropLast_sublist _).subset h2
            simp only [List.mem_cons, List.mem_append] at h5 ⊢
            tauto
        have h3 : ¬(u = lastD rh rt) := hrlnot u humem
        have h4 : ¬(u = lastD d (p0 :: ps)) := by
          rcases List.mem_cons.1 hu with h2 | h2
          · subst h2
            intro he
            have hm := lastD_mem p0 ps
            rw [lastD_cons] at he
            exact hdp (he ▸ hm)
          · intro he
            exact lastD_not_mem_dropLast (p0 :: ps) d hpnd (he ▸ h2)
        rw [Heap.link_next, if_neg h3, Heap.link_next, if_neg h4]
      · intro u hu
        have humem : u ∈ d :: (p0 :: ps ++ q) := by
          simp only [List.mem_cons, List.mem_append] at hu ⊢
          tauto
        have h3 : ¬(u = firstD d q) := hznotp u hu
        have h4 : ¬(u = rh) := hrhnot u humem
        rw [Heap.link_prev, if_neg h3, Heap.link_prev, if_neg h4]
  · -- the spliced-in run followed by the old suffix
    rw [show (rh :: rt) ++ (q ++ [d]) = rh :: (rt ++ (q ++ [d])) from rfl,
      chain2_cons]
    refine ⟨⟨?_, ?_⟩, ?_⟩
    · rw [Heap.link_next, if_neg hArl, Heap.link_next, if_pos rfl]
    · rw [Heap.link_prev, if_neg hrhz, Heap.link_prev, if_pos rfl]
    · rw [chain2_split]
      constructor
      · -- run interior
        cases rt with
        | nil => trivial
        | cons r1 rs =>
          refine chain2_frame _ _ ?_ ?_ hchain
          · intro u hu
            have hu' : u ∈ (rh :: r1 :: rs).dropLast := by
              rw [show (rh :: r1 :: rs).dropLast = rh :: (r1 :: rs).dropLast
                from rfl]
              exact hu
            have hu2 : u ∈ rh :: r1 :: rs :=
              (List.dropLast_sublist _).subset hu'
            have h3 : ¬(u = lastD rh (r1 :: rs)) := by
              intro he
              have hnm := lastD_not_mem_dropLast (rh :: r1 :: rs) d hrnd
              rw [show lastD d (rh :: r1 :: rs) = lastD rh (r1 :: rs) from rfl]
                at hnm
              exact hnm (he ▸ hu')
            have h4 : ¬(u = lastD d p) := hArun u hu2
            rw [Heap.link_next, if_neg h3, Heap.link_next, if_neg h4]
          · intro u hu
            have h3 : ¬(u = firstD d q) := hzrun u (List.mem_cons_of_mem _ hu)
            have h4 : ¬(u = rh) := by
              intro he
              exact (List.nodup_cons.1 hrnd).1 (he ▸ hu)
            rw [Heap.link_prev, if_neg h3, Heap.link_prev, if_neg h4]
      · -- tail: from the run's last through the old suffix
        cases q with
        | nil =>
          refine ⟨⟨?_, ?_⟩, trivial⟩
          · simp
          · simp
        | cons qh qt =>
          refine ⟨⟨?_, ?_⟩, ?_⟩
          · simp
          · simp
          · refine chain2_frame _ _ ?_ ?_ hcq.2
            · intro u hu
              have hu2 : u ∈ qh :: qt := by
                simpa [List.dropLast_concat] using hu
              have humem : u ∈ d :: (p ++ qh :: qt) := by
                simp only [List.mem_cons, List.mem_append]
                rcases List.mem_cons.1 hu2 with h2 | h2
                · exact Or.inr (Or.inr (by simp [h2]))
                · exact Or.inr (Or.inr (by simp [h2]))
              have h3 : ¬(u = lastD rh (rt)) := hrlnot u humem
              have h4 : ¬(u = lastD d p) := hAnotq u hu2
              rw [Heap.link_next, if_neg h3, Heap.link_next, if_neg h4]
            · intro u hu
              have h3 : ¬(u = firstD d (qh :: qt)) := by
                rw [firstD_cons]
                rcases List.mem_append.1 hu with h2 | h2
                · intro he
                  exact (List.nodup_cons.1 hqnd).1 (he ▸ h2)
                · simp only [List.mem_singleton] at h2
                  subst h2
                  intro he
                  exact hdq (he ▸ List.mem_cons_self qh qt)
              have humem : u ∈ d :: (p ++ qh :: qt) := by
                simp only [List.mem_cons, List.mem_append]
                rcases List.mem_append.1 hu with h2 | h2
                · tauto
                · simp only [List.mem_singleton] at h2
                  tauto
              have h4 : ¬(u = rh) := hrhnot u humem
              rw [Heap.link_prev, if_neg h3, Heap.link_prev, if_neg h4]

/-! ## Well-formedness: intro/elim and transport -/

theorem chain2_of_mem_agree {T : Type} {h h' : Heap T} {a : Nat} {l : List Nat}
    (hag : ∀ u ∈ a :: l, h'.mem u = h.mem u) (hc : chain2 h a l) :
    chain2 h' a l := by
  refine chain2_frame _ _ ?_ ?_ hc
  · intro u hu
    rcases List.mem_cons.1 hu with h1 | h1
    · rw [hag u (by simp [h1])]
    · rw [hag u (List.mem_cons_of_mem _ ((List.dropLast_sublist _).subset h1))]
  · intro u hu
    rw [hag u (List.mem_cons_of_mem _ hu)]

theorem StWF_some_intro {T : Type} {s : St T} {d : Nat} {ns : List Nat}
    (hd : s.dummy = some d) (h1 : Ring s.heap d ns) (h2 : s.len = ns.length)
    (h3 : (d :: ns).Nodup) (h4 : ∀ n ∈ d :: ns, n < s.heap.fresh) :
    StWF s ns := by
  simp only [StWF, hd]
  exact ⟨h1, h2, h3, h4⟩

theorem StWF_some_elim {T : Type} {s : St T} {d : Nat} {ns : List Nat}
    (hd : s.dummy = some d) (hwf : StWF s ns) :
    Ring s.heap d ns ∧ s.len = ns.length ∧ (d :: ns).Nodup ∧
      ∀ n ∈ d :: ns, n < s.heap.fresh := by
  simp only [StWF, hd] at hwf
  exact hwf

theorem StWF_none_elim {T : Type} {s : St T} {ns : List Nat}
    (hd : s.dummy = none) (hwf : StWF s ns) : ns = [] ∧ s.len = 0 := by
  simp only [StWF, hd] at hwf
  exact hwf

/-- Well-formedness transports across states whose heaps agree pointwise on
memory (allocation bookkeeping is irrelevant to the ring). -/
theorem StWF_ext {T : Type} {s s' : St T} {ns : List Nat}
    (hdu : s'.dummy = s.dummy) (hlen : s'.len = s.len)
    (hfr : s'.heap.fresh = s.heap.fresh)
    (hag : ∀ u, s'.heap.mem u = s.heap.mem u) (hwf : StWF s ns) :
    StWF s' ns := by
  cases hd : s.dummy with
  | none =>
    obtain ⟨h1, h2⟩ := StWF_none_elim hd hwf
    simp only [StWF, hdu, hd]
    exact ⟨h1, hlen.trans h2⟩
  | some d =>
    obtain ⟨h1, h2, h3, h4⟩ := StWF_some_elim hd hwf
    refine StWF_some_intro (hdu.trans hd) ?_ (hlen.trans h2) h3 ?_
    · exact chain2_of_mem_agree (fun u _ => hag u) h1
    · intro n hn
      rw [hfr]
      exact h4 n hn

theorem satAdd_one {a : Nat} (h : a + 1 < USIZE) : satAdd a 1 = a + 1 := by
  unfold satAdd
  omega

/-! ## Preservation: `init` and `insert_after` -/

theorem init_some {T : Type} {s : St T} {d : Nat} (hd : s.dummy = some d) :
    s.init = (d, s) := by
  simp [St.init, hd]

theorem init_none {T : Type} {s : St T} (hd : s.dummy = none) :
    s.init = (s.heap.fresh,
      { s with heap := (s.heap.allocDummy).2, dummy := some s.heap.fresh }) := by
  simp [St.init, hd, Heap.allocDummy]

theorem init_wf_none {T : Type} {s : St T} {ns : List Nat}
    (hd : s.dummy = none) (hwf : StWF s ns) : StWF (s.init).2 [] := by
  obtain ⟨h1, h2⟩ := StWF_none_elim hd hwf
  rw [init_none hd]
  refine StWF_some_intro rfl ?_ h2 (by simp) ?_
  · refine ⟨⟨?_, ?_⟩, trivial⟩ <;> simp
  · intro n hn
    simp only [List.mem_cons, List.not_mem_nil, or_false] at hn
    subst hn
    simp

/-- Unfolded form of `NodePtr::insert_after`. -/
theorem nodeInsertAfter_def {T : Type} (s : St T) (a : Nat) (x : T) :
    s.nodeInsertAfter a x =
      { s with
          heap :=
            (((s.heap.allocNode danglingAddr (some x) danglingAddr).2).link a
                  s.heap.fresh).link s.heap.fresh
              (((s.heap.allocNode danglingAddr (some x) danglingAddr).2).mem a).next
          len := satAdd s.len 1 } := rfl

/-- Unfolded form of `NodePtr::insert_before`. -/
theorem nodeInsertBefore_def {T : Type} (s : St T) (a : Nat) (x : T) :
    s.nodeInsertBefore a x =
      { s with
          heap :=
            (((s.heap.allocNode danglingAddr (some x) danglingAddr).2).link
                  (((s.heap.allocNode danglingAddr (some x) danglingAddr).2).mem a).prev
                  s.heap.fresh).link s.heap.fresh a
          len := satAdd s.len 1 } := rfl

/-- `insert_after` at the node closing the ring prefix `p` splices the fresh
node between `p` and `q`. -/
theorem nodeInsertAfter_wf {T : Type} {s : St T} {d : Nat} {ns p q : List Nat}
    (hd : s.dummy = some d) (hwf : StWF s ns) (hpq : ns = p ++ q)
    (hb : ns.length + 1 < USIZE) (x : T) :
    StWF (s.nodeInsertAfter (lastD d p) x) (p ++ s.heap.fresh :: q) ∧
    (s.nodeInsertAfter (lastD d p) x).len = s.len + 1 ∧
    (s.nodeInsertAfter (lastD d p) x).dummy = some d ∧
    ((s.nodeInsertAfter (lastD d p) x).heap.mem s.heap.fresh).item = some x ∧
    (∀ u, u < s.heap.fresh →
      ((s.nodeInsertAfter (lastD d p) x).heap.mem u).item =
        (s.heap.mem u).item) ∧
    (s.nodeInsertAfter (lastD d p) x).heap.fresh = s.heap.fresh + 1 := by
  subst hpq
  obtain ⟨hring, hlen, hnd, hfr⟩ := StWF_some_elim hd hwf
  have hmfr : ∀ u ∈ d :: (p ++ q), u ≠ s.heap.fresh := by
    intro u hu he
    exact absurd (he ▸ hfr u hu) (lt_irrefl _)
  have hringA : Ring ((s.heap.allocNode danglingAddr (some x) danglingAddr).2) d
      (p ++ q) := by
    refine chain2_of_mem_agree ?_ hring
    intro u hu
    rcases List.mem_cons.1 hu with h1 | h1
    · simp [Heap.allocNode, hmfr u (by simp [h1])]
    · have hu2 : u ∈ d :: (p ++ q) := by
        rcases List.mem_append.1 h1 with h2 | h2
        · exact List.mem_cons_of_mem _ h2
        · simp at h2
          simp [h2]
      simp [Heap.allocNode, hmfr u hu2]
  have hch : chain2 ((s.heap.allocNode danglingAddr (some x) danglingAddr).2)
      s.heap.fresh ([] : List Nat) := trivial
  have hdisj1 : ∀ y ∈ s.heap.fresh :: ([] : List Nat), y ∉ d :: (p ++ q) := by
    intro y hy
    simp only [List.mem_cons, List.not_mem_nil, or_false] at hy
    subst hy
    intro hmem
    exact hmfr _ hmem rfl
  have hrnd1 : (s.heap.fresh :: ([] : List Nat)).Nodup := by simp
  have hsp := ring_splice_after hringA hnd hch hdisj1 hrnd1
  rw [nodeInsertAfter_def]
  constructor
  · refine StWF_some_intro hd ?_ ?_ ?_ ?_
    · -- the ring with the fresh node inserted
      simpa [nextF] using hsp
    · -- length
      show satAdd s.len 1 = _
      rw [satAdd_one (by omega : s.len + 1 < USIZE)]
      simp only [List.length_append, List.length_cons] at hlen ⊢
      omega
    · -- distinctness
      have := nodup_insert_run hnd hrnd1 hdisj1
      simpa using this
    · -- fresh bound
      intro n hn
      simp only [Heap.link_fresh, Heap.allocNode_fresh]
      rcases List.mem_cons.1 hn with h1 | h1
      · have := hfr d (by simp)
        omega
      · rcases List.mem_append.1 h1 with h2 | h2
        · have := hfr n (by simp [List.mem_append, h2])
          omega
        · rcases List.mem_cons.1 h2 with h3 | h3
          · omega
          · have := hfr n (by simp [List.mem_append, h3])
            omega
  · refine ⟨?_, hd, ?_, ?_, rfl⟩
    · -- length grows by exactly one
      show satAdd s.len 1 = _
      rw [satAdd_one (by omega : s.len + 1 < USIZE)]
    · -- the fresh payload
      simp [Heap.allocNode]
    · -- old payloads untouched
      intro u hu
      have hne : u ≠ s.heap.fresh := fun he => absurd (he ▸ hu) (lt_irrefl _)
      simp [Heap.allocNode, hne]

/-! ## `push_front` / `push_back` as splices -/

/-- `push_front`'s hand-written pointer updates produce the same state as
`insert_after` at the sentinel. -/
theorem pushFront_eq_insertAfter {T : Type} (s : St T) (d : Nat)
    (hd : s.dummy = some d) (hne : ¬(d = s.heap.fresh))
    (hne2 : ¬((s.heap.mem d).next = s.heap.fresh)) (x : T) :
    s.pushFront x = s.nodeInsertAfter d x := by
  have hinit : s.init = (d, s) := init_some hd
  unfold St.pushFront St.nodeInsertAfter St.spliceAfter
  rw [hinit]
  refine St.ext ?_ rfl rfl
  refine Heap.ext ?_ rfl rfl
  funext u
  refine Node.ext ?_ ?_ ?_
  · -- prev field
    by_cases h1 : u = s.heap.fresh <;> by_cases h2 : u = (s.heap.mem d).next <;>
      simp_all [Heap.allocNode, danglingAddr]
  · -- next field
    by_cases h1 : u = s.heap.fresh <;> by_cases h2 : u = d <;>
      simp_all [Heap.allocNode, danglingAddr]
  · -- item field
    by_cases h1 : u = s.heap.fresh <;> simp_all [Heap.allocNode]

/-- `push_back`'s pointer updates produce the same state as `insert_after`
at the ring's last node. -/
theorem pushBack_eq_insertAfter {T : Type} (s : St T) (d : Nat)
    (hd : s.dummy = some d) (hne : ¬(d = s.heap.fresh))
    (hne2 : ¬((s.heap.mem d).prev = s.heap.fresh))
    (hz : (s.heap.mem ((s.heap.mem d).prev)).next = d) (x : T) :
    s.pushBack x = s.nodeInsertAfter ((s.heap.mem d).prev) x := by
  have hinit : s.init = (d, s) := init_some hd
  unfold St.pushBack St.nodeInsertAfter St.spliceAfter
  rw [hinit]
  refine St.ext ?_ rfl rfl
  refine Heap.ext ?_ rfl rfl
  funext u
  refine Node.ext ?_ ?_ ?_
  · by_cases h1 : u = s.heap.fresh <;> by_cases h2 : u = d <;>
      simp_all [Heap.allocNode, danglingAddr]
  · by_cases h1 : u = s.heap.fresh <;>
      by_cases h2 : u = (s.heap.mem d).prev <;>
      simp_all [Heap.allocNode, danglingAddr]
  · by_cases h1 : u = s.heap.fresh <;> simp_all [Heap.allocNode]

/-- `push_front` sends a list with an initialized sentinel to a
well-formed successor state. -/
theorem pushFront_wf_some {T : Type} {s : St T} {d : Nat} {ns : List Nat}
    (hd : s.dummy = some d) (hwf : StWF s ns) (hb : ns.length + 1 < USIZE)
    (x : T) : ∃ m, StWF (s.pushFront x) (m :: ns) := by
  obtain ⟨hring, hlen, hnd, hfr⟩ := StWF_some_elim hd hwf
  have hdfr : ¬(d = s.heap.fresh) :=
    fun he => absurd (he ▸ hfr d (by simp)) (lt_irrefl _)
  have hheadmem : (s.heap.mem d).next ∈ d :: ns :=
    ring_next_mem hring d (by simp)
  have hhfr : ¬((s.heap.mem d).next = s.heap.fresh) :=
    fun he => absurd (he ▸ hfr _ hheadmem) (lt_irrefl _)
  rw [pushFront_eq_insertAfter s d hd hdfr hhfr x]
  have hins := nodeInsertAfter_wf hd hwf (List.nil_append ns).symm hb x
  exact ⟨s.heap.fresh, by simpa using hins.1⟩

/-- `push_back` sends a list with an initialized sentinel to a well-formed
successor state. -/
theorem pushBack_wf_some {T : Type} {s : St T} {d : Nat} {ns : List Nat}
    (hd : s.dummy = some d) (hwf : StWF s ns) (hb : ns.length + 1 < USIZE)
    (x : T) : ∃ m, StWF (s.pushBack x) (ns ++ [m]) := by
  obtain ⟨hring, hlen, hnd, hfr⟩ := StWF_some_elim hd hwf
  have hdfr : ¬(d = s.heap.fresh) :=
    fun he => absurd (he ▸ hfr d (by simp)) (lt_irrefl _)
  have htailmem : (s.heap.mem d).prev ∈ d :: ns :=
    ring_prev_mem hring d (by simp)
  have htfr : ¬((s.heap.mem d).prev = s.heap.fresh) :=
    fun he => absurd (he ▸ hfr _ htailmem) (lt_irrefl _)
  have htail : prevF s.heap d = lastD d ns := by
    have hc : chain2 s.heap d (ns ++ [d]) := hring
    rw [chain2_split] at hc
    exact hc.2.1.2
  have hz : (s.heap.mem ((s.heap.mem d).prev)).next = d := by
    have hc : chain2 s.heap d (ns ++ [d]) := hring
    rw [chain2_split] at hc
    have h1 := hc.2.1.1
    show nextF s.heap (prevF s.heap d) = d
    rw [htail]
    exact h1
  rw [pushBack_eq_insertAfter s d hd hdfr htfr hz x]
  have hpq : ns = ns ++ [] := (List.append_nil ns).symm
  have hins := nodeInsertAfter_wf hd hwf hpq hb x
  refine ⟨s.heap.fresh, ?_⟩
  have h2 := hins.1
  have hlast : lastD d ns = prevF s.heap d := htail.symm
  rw [hlast] at h2
  simpa [prevF] using h2

/-- The two `push` entry points re-expressed through `init`. -/
theorem pushFront_init {T : Type} (s : St T) (x : T) :
    s.pushFront x = ((s.init).2).pushFront x := by
  cases hdum : s.dummy with
  | some d => rw [init_some hdum]
  | none =>
    rw [init_none hdum]
    unfold St.pushFront
    rw [init_none hdum, init_some rfl]

theorem pushBack_init {T : Type} (s : St T) (x : T) :
    s.pushBack x = ((s.init).2).pushBack x := by
  cases hdum : s.dummy with
  | some d => rw [init_some hdum]
  | none =>
    rw [init_none hdum]
    unfold St.pushBack
    rw [init_none hdum, init_some rfl]

theorem pushFront_wf {T : Type} {s : St T} {ns : List Nat}
    (hwf : StWF s ns) (hb : ns.length + 1 < USIZE) (x : T) :
    ∃ m, StWF (s.pushFront x) (m :: ns) := by
  cases hdum : s.dummy with
  | some d => exact pushFront_wf_some hdum hwf hb x
  | none =>
    obtain ⟨hns, _⟩ := StWF_none_elim hdum hwf
    subst hns
    rw [pushFront_init]
    have hwf2 : StWF (s.init).2 [] := init_wf_none hdum hwf
    have hd2 : ((s.init).2).dummy = some s.heap.fresh := by
      rw [init_none hdum]
    exact pushFront_wf_some hd2 hwf2 hb x

theorem pushBack_wf {T : Type} {s : St T} {ns : List Nat}
    (hwf : StWF s ns) (hb : ns.length + 1 < USIZE) (x : T) :
    ∃ m, StWF (s.pushBack x) (ns ++ [m]) := by
  cases hdum : s.dummy with
  | some d => exact pushBack_wf_some hdum hwf hb x
  | none =>
    obtain ⟨hns, _⟩ := StWF_none_elim hdum hwf
    subst hns
    rw [pushBack_init]
    have hwf2 : StWF (s.init).2 [] := init_wf_none hdum hwf
    have hd2 : ((s.init).2).dummy = some s.heap.fresh := by
      rw [init_none hdum]
    exact pushBack_wf_some hd2 hwf2 hb x

/-! ## `slice_off` and the pops -/

theorem collectFwdA_congr {T : Type} {h h' : Heap T} (hm : h'.mem = h.mem) :
    ∀ (k a : Nat), collectFwdA h' a k = collectFwdA h a k
  | 0, _ => rfl
  | k + 1, a => by
    show a :: collectFwdA h' (nextF h' a) k = a :: collectFwdA h (nextF h a) k
    rw [show nextF h' a = nextF h a from by unfold nextF; rw [hm],
      collectFwdA_congr hm k]

theorem collectBwdA_congr {T : Type} {h h' : Heap T} (hm : h'.mem = h.mem) :
    ∀ (k a : Nat), collectBwdA h' a k = collectBwdA h a k
  | 0, _ => rfl
  | k + 1, a => by
    show a :: collectBwdA h' (prevF h' a) k = a :: collectBwdA h (prevF h a) k
    rw [show prevF h' a = prevF h a from by unfold prevF; rw [hm],
      collectBwdA_congr hm k]

theorem pays_congr {T : Type} [Inhabited T] {h h' : Heap T}
    (hm : ∀ u, (h'.mem u).item = (h.mem u).item) :
    ∀ l : List Nat, pays h' l = pays h l
  | [] => rfl
  | x :: xs => by
    show payload h' x :: pays h' xs = payload h x :: pays h xs
    rw [pays_congr hm xs]
    unfold payload
    rw [hm x]

theorem drainRun_state {T : Type} [Inhabited T] :
    ∀ (k front : Nat) (s : St T),
      (St.drainRun front k s).2.heap.mem = s.heap.mem ∧
      (St.drainRun front k s).2.heap.fresh = s.heap.fresh ∧
      (St.drainRun front k s).2.dummy = s.dummy ∧
      (St.drainRun front k s).2.len = s.len ∧
      (St.drainRun front k s).1 = pays s.heap (collectFwdA s.heap front k)
  | 0, _, _ => ⟨rfl, rfl, rfl, rfl, rfl⟩
  | k + 1, f, s => by
    have ih := drainRun_state k ((s.heap.mem f).next)
      { s with heap := { s.heap with alloc := s.heap.alloc.erase f } }
    refine ⟨ih.1, ih.2.1, ih.2.2.1, ih.2.2.2.1, ?_⟩
    show _ :: (St.drainRun ((s.heap.mem f).next) k _).1 = _
    rw [ih.2.2.2.2]
    have hm : ({ s.heap with alloc := s.heap.alloc.erase f } : Heap T).mem =
        s.heap.mem := rfl
    rw [collectFwdA_congr hm, pays_congr (fun u => by rw [hm])]
    rfl

/-- `slice_off` of the contiguous run `rh :: rt` (with `back` its last node
and `count` its length): the remainder is well-formed, the run's payloads
are yielded in order, and no payload outside the run is touched. -/
theorem sliceOff_wf {T : Type} [Inhabited T] {s : St T} {d rh : Nat}
    {p rt q : List Nat} (hd : s.dummy = some d)
    (hwf : StWF s (p ++ (rh :: rt) ++ q)) :
    StWF (s.sliceOff rh (lastD rh rt) (rt.length + 1)).2 (p ++ q) ∧
    (s.sliceOff rh (lastD rh rt) (rt.length + 1)).2.len =
      s.len - (rt.length + 1) ∧
    (s.sliceOff rh (lastD rh rt) (rt.length + 1)).2.dummy = some d ∧
    (s.sliceOff rh (lastD rh rt) (rt.length + 1)).1 = pays s.heap (rh :: rt) ∧
    (∀ u, ((s.sliceOff rh (lastD rh rt) (rt.length + 1)).2.heap.mem u).item =
      (s.heap.mem u).item) := by
  obtain ⟨hring, hlen, hnd, hfr⟩ := StWF_some_elim hd hwf
  obtain ⟨hring', hchain', hprev', hnext'⟩ := ring_unlink hring hnd
  have hchainX : chain2 (s.heap.link ((s.heap.mem rh).prev)
      ((s.heap.mem (lastD rh rt)).next)) rh rt := hchain'
  have hringX : Ring (s.heap.link ((s.heap.mem rh).prev)
      ((s.heap.mem (lastD rh rt)).next)) d (p ++ q) := hring'
  have hmem1 : ∀ u,
      ((s.heap.link ((s.heap.mem rh).prev)
        ((s.heap.mem (lastD rh rt)).next)).mem u).item =
        (s.heap.mem u).item := by
    intro u
    simp
  have hds := drainRun_state (rt.length + 1) rh
    { s with
        heap := s.heap.link ((s.heap.mem rh).prev)
          ((s.heap.mem (lastD rh rt)).next)
        len := satSub s.len (rt.length + 1) }
  have hcollect : collectFwdA
      (s.heap.link ((s.heap.mem rh).prev) ((s.heap.mem (lastD rh rt)).next))
      rh (rt.length + 1) = rh :: rt := by
    show rh :: collectFwdA _ (nextF _ rh) rt.length = rh :: rt
    rw [chain2_collectF rt rh hchainX rt.length le_rfl, List.take_length]
  refine ⟨?_, ?_, ?_, ?_, ?_⟩
  · -- well-formedness of the remainder
    have hdum2 : (s.sliceOff rh (lastD rh rt) (rt.length + 1)).2.dummy = some d := by
      show (St.drainRun _ _ _).2.dummy = some d
      rw [hds.2.2.1]
      exact hd
    refine StWF_some_intro hdum2 ?_ ?_ ?_ ?_
    · refine chain2_of_mem_agree ?_ hringX
      intro u _
      show ((St.drainRun _ _ _).2.heap.mem) u = _
      rw [hds.1]
    · show (St.drainRun _ _ _).2.len = _
      rw [hds.2.2.2.1]
      show s.len - (rt.length + 1) = _
      simp only [List.length_append, List.length_cons] at hlen
      simp only [List.length_append]
      omega
    · have hsub : (d :: (p ++ q)).Nodup := by
        have hsl : List.Sublist (d :: (p ++ q)) (d :: (p ++ (rh :: rt) ++ q)) := by
          refine List.Sublist.cons₂ d ?_
          rw [List.append_assoc]
          exact (List.sublist_append_right (rh :: rt) q).append_left p
        exact hnd.sublist hsl
      exact hsub
    · intro n hn
      show n < (St.drainRun _ _ _).2.heap.fresh
      rw [hds.2.1]
      refine hfr n ?_
      rcases List.mem_cons.1 hn with h1 | h1
      · simp [h1]
      · rcases List.mem_append.1 h1 with h2 | h2
        · simp [List.mem_append, h2]
        · simp [List.mem_append, h2]
  · show (St.drainRun _ _ _).2.len = _
    rw [hds.2.2.2.1]
    rfl
  · show (St.drainRun _ _ _).2.dummy = some d
    rw [hds.2.2.1]
    exact hd
  · show (St.drainRun _ _ _).1 = _
    rw [hds.2.2.2.2, hcollect]
    unfold pays
    refine List.map_congr_left ?_
    intro u _
    unfold payload
    rw [hmem1 u]
  · intro u
    show ((St.drainRun _ _ _).2.heap.mem u).item = _
    rw [hds.1]
    exact hmem1 u

theorem sliceOff_mem {T : Type} [Inhabited T] (s : St T) (f b k : Nat) :
    (s.sliceOff f b k).2.heap.mem =
      (s.heap.link ((s.heap.mem f).prev) ((s.heap.mem b).next)).mem :=
  (drainRun_state k f _).1

theorem sliceOff_fresh {T : Type} [Inhabited T] (s : St T) (f b k : Nat) :
    (s.sliceOff f b k).2.heap.fresh = s.heap.fresh :=
  (drainRun_state k f _).2.1

/-- `pop_front` preserves well-formedness, dropping the ring's head. -/
theorem popFront_wf {T : Type} [Inhabited T] {s : St T} {ns : List Nat}
    (hwf : StWF s ns) : StWF (s.popFront).2 ns.tail := by
  cases hdum : s.dummy with
  | none =>
    obtain ⟨hns, _⟩ := StWF_none_elim hdum hwf
    subst hns
    simpa [St.popFront, hdum] using hwf
  | some d =>
    obtain ⟨hring, hlen, hnd, hfr⟩ := StWF_some_elim hdum hwf
    cases hns : ns with
    | nil =>
      subst hns
      have hnextd : (s.heap.mem d).next = d := hring.1.1
      have hres : s.popFront = (none, s) := by
        simp [St.popFront, hdum, hnextd, St.nodeDealloc, St.isDummy]
      rw [hres]
      exact hwf
    | cons n₀ rest =>
      subst hns
      have hne : ¬(d = n₀) := by
        intro he
        exact (List.nodup_cons.1 hnd).1 (he ▸ List.mem_cons_self n₀ rest)
      have hnext0 : (s.heap.mem d).next = n₀ := hring.1.1
      have hpop2 : (s.popFront).2 =
          { heap := ((s.heap.dealloc n₀).2.setNext d ((s.heap.mem n₀).next)).setPrev
              ((s.heap.mem n₀).next) d
            dummy := s.dummy
            len := satSub s.len 1 } := by
        simp [St.popFront, hdum, hnext0, St.nodeDealloc, St.isDummy, hne,
          Heap.dealloc]
      have hwf' : StWF s (([] : List Nat) ++ (n₀ :: ([] : List Nat)) ++ rest) :=
        hwf
      have hs := sliceOff_wf hdum hwf'
      have hprevn : (s.heap.mem n₀).prev = d := hring.1.2
      refine StWF_ext ?_ ?_ ?_ ?_ hs.1
      · rw [hpop2]
        show s.dummy = _
        rw [hs.2.2.1, hdum]
      · rw [hpop2]
        show satSub s.len 1 = _
        rw [hs.2.1]
        rfl
      · rw [hpop2]
        show s.heap.fresh = _
        rw [sliceOff_fresh]
      · intro u
        rw [hpop2, sliceOff_mem]
        show (((s.heap.dealloc n₀).2.setNext d ((s.heap.mem n₀).next)).setPrev
            ((s.heap.mem n₀).next) d).mem u = _
        rw [hprevn]
        rfl

/-- `pop_back` preserves well-formedness, dropping the ring's last node. -/
theorem popBack_wf {T : Type} [Inhabited T] {s : St T} {ns : List Nat}
    (hwf : StWF s ns) : StWF (s.popBack).2 ns.dropLast := by
  cases hdum : s.dummy with
  | none =>
    obtain ⟨hns, _⟩ := StWF_none_elim hdum hwf
    subst hns
    simpa [St.popBack, hdum] using hwf
  | some d =>
    obtain ⟨hring, hlen, hnd, hfr⟩ := StWF_some_elim hdum hwf
    have hc : chain2 s.heap d (ns ++ [d]) := hring
    rw [chain2_split] at hc
    have hprevd : (s.heap.mem d).prev = lastD d ns := hc.2.1.2
    have hz : (s.heap.mem (lastD d ns)).next = d := hc.2.1.1
    cases hns : ns with
    | nil =>
      subst hns
      have hres : s.popBack = (none, s) := by
        have hpd : (s.heap.mem d).prev = d := by simpa using hprevd
        simp [St.popBack, hdum, hpd, St.nodeDealloc, St.isDummy]
      rw [hres]
      exact hwf
    | cons m₀ rest =>
      subst hns
      have hlne : (m₀ :: rest) ≠ [] := by simp
      have hlast : lastD d (m₀ :: rest) = (m₀ :: rest).getLast hlne := by
        rw [lastD_cons]
        clear hprevd hz hring hlen hnd hfr hwf hc
        induction rest generalizing m₀ with
        | nil => rfl
        | cons y ys ih => exact ih y (by simp)
      have hlmem : lastD d (m₀ :: rest) ∈ m₀ :: rest := by
        rcases List.mem_cons.1 (lastD_mem d (m₀ :: rest)) with h1 | h1
        · exfalso
          have hm : lastD d (m₀ :: rest) ∈ m₀ :: rest := by
            rw [lastD_cons]
            exact lastD_mem m₀ rest
          rw [h1] at hm
          exact (List.nodup_cons.1 hnd).1 hm
        · exact h1
      have hne : ¬(d = lastD d (m₀ :: rest)) := by
        intro he
        exact (List.nodup_cons.1 hnd).1 (he ▸ hlmem)
      have hdecomp : m₀ :: rest =
          (m₀ :: rest).dropLast ++ [(m₀ :: rest).getLast hlne] :=
        (List.dropLast_append_getLast hlne).symm
      have hwf' : StWF s ((m₀ :: rest).dropLast ++
          ((lastD d (m₀ :: rest)) :: ([] : List Nat)) ++ ([] : List Nat)) := by
        have : (m₀ :: rest).dropLast ++ ((lastD d (m₀ :: rest)) :: ([] : List Nat))
            ++ ([] : List Nat) = m₀ :: rest := by
          rw [List.append_nil, hlast]
          exact List.dropLast_append_getLast hlne
        rw [this]
        exact hwf
      have hs := sliceOff_wf hdum hwf'
      have hpop2 : (s.popBack).2 =
          { heap := ((s.heap.dealloc (lastD d (m₀ :: rest))).2.setPrev d
              ((s.heap.mem (lastD d (m₀ :: rest))).prev)).setNext
              ((s.heap.mem (lastD d (m₀ :: rest))).prev) d
            dummy := s.dummy
            len := satSub s.len 1 } := by
        have hne' : ¬(d = lastD m₀ rest) := by
          rw [lastD_cons] at hne
          exact hne
        simp [St.popBack, hdum, hprevd, St.nodeDealloc, St.isDummy, hne',
          Heap.dealloc]
      have hwfslice := hs.1
      rw [List.append_nil] at hwfslice
      refine StWF_ext ?_ ?_ ?_ ?_ hwfslice
      · rw [hpop2]
        show s.dummy = _
        rw [hs.2.2.1, hdum]
      · rw [hpop2]
        show satSub s.len 1 = _
        rw [hs.2.1]
        rfl
      · rw [hpop2]
        show s.heap.fresh = _
        rw [sliceOff_fresh]
      · intro u
        rw [hpop2, sliceOff_mem, lastD_nil, hz]
        refine Node.ext ?_ ?_ ?_ <;> simp

/-! ## Cursor layer lemmas -/

theorem wrapAdd_small {a b : Nat} (h : a + b < USIZE) : wrapAdd a b = a + b := by
  unfold wrapAdd
  exact Nat.mod_eq_of_lt h

/-- `insert_before` is `insert_after` at the predecessor (the two `link`s
coincide once the ring's back-link equations are substituted). -/
theorem nodeInsertBefore_eq {T : Type} (s : St T) (a : Nat) (x : T)
    (hfr : a < s.heap.fresh) (hfr2 : (s.heap.mem a).prev < s.heap.fresh)
    (hz : (s.heap.mem ((s.heap.mem a).prev)).next = a) :
    s.nodeInsertBefore a x = s.nodeInsertAfter ((s.heap.mem a).prev) x := by
  rw [nodeInsertBefore_def, nodeInsertAfter_def]
  have hane : ¬(a = s.heap.fresh) := Nat.ne_of_lt hfr
  have hane2 : ¬((s.heap.mem a).prev = s.heap.fresh) := Nat.ne_of_lt hfr2
  have e1 : (((s.heap.allocNode danglingAddr (some x) danglingAddr).2).mem a).prev
      = (s.heap.mem a).prev := by
    simp [Heap.allocNode, hane]
  have e2 : (((s.heap.allocNode danglingAddr (some x) danglingAddr).2).mem
      ((s.heap.mem a).prev)).next = a := by
    simp [Heap.allocNode, hane2, hz]
  rw [e1, e2]

/-- The list state produced by a cursor `insert_after` (both branches of the
index adjustment share it). -/
theorem cursorInsertAfter_state {T : Type} (c : RawCursor) (s : St T) (x : T) :
    (c.insertAfter s x).2 = ((c.cinit s).2.2).nodeInsertAfter ((c.cinit s).1) x := by
  cases hc : c.node with
  | some n =>
    simp only [RawCursor.insertAfter, RawCursor.cinit, hc]
    split <;> rfl
  | none =>
    simp only [RawCursor.insertAfter, RawCursor.cinit, hc]
    split <;> rfl

/-- The list state produced by a cursor `insert_before`. -/
theorem cursorInsertBefore_state {T : Type} (c : RawCursor) (s : St T) (x : T) :
    (c.insertBefore s x).2 =
      ((c.cinit s).2.2).nodeInsertBefore ((c.cinit s).1) x := by
  cases hc : c.node with
  | some n =>
    simp only [RawCursor.insertBefore, RawCursor.cinit, hc]
    split <;> rfl
  | none =>
    simp only [RawCursor.insertBefore, RawCursor.cinit, hc]
    split <;> rfl

theorem cursorOk_new {T : Type} {s : St T} {ns : List Nat} (hwf : StWF s ns) :
    CursorOk (RawCursor.new s) s ns := by
  cases hd : s.dummy with
  | none => simp [CursorOk, RawCursor.new, hd]
  | some d => simp [CursorOk, RawCursor.new, hd]

theorem cursorOk_moveNext {T : Type} {s : St T} {ns : List Nat}
    {c : RawCursor} (hwf : StWF s ns) (hok : CursorOk c s ns) :
    CursorOk (c.moveNext s) s ns := by
  cases hc : c.node with
  | none =>
    simpa [RawCursor.moveNext, hc] using hok
  | some n =>
    cases hd : s.dummy with
    | none => simp [CursorOk, hc, hd] at hok
    | some d =>
      obtain ⟨hring, _, _, _⟩ := StWF_some_elim hd hwf
      simp only [CursorOk, hc, hd] at hok
      simp only [RawCursor.moveNext, hc, RawCursor.indexAdd, RawCursor.setIndex]
      split <;> simp only [CursorOk, hd] <;>
        exact ring_next_mem hring n hok

theorem setIndex_node {T : Type} (c : RawCursor) (i : Nat) (s : St T) :
    (c.setIndex i s).node = c.node := by
  unfold RawCursor.setIndex
  split <;> rfl

theorem cursorOk_movePrev {T : Type} {s : St T} {ns : List Nat}
    {c : RawCursor} (hwf : StWF s ns) (hok : CursorOk c s ns) :
    CursorOk (c.movePrev s) s ns := by
  cases hc : c.node with
  | none =>
    simpa [RawCursor.movePrev, hc] using hok
  | some n =>
    cases hd : s.dummy with
    | none => simp [CursorOk, hc, hd] at hok
    | some d =>
      obtain ⟨hring, _, _, _⟩ := StWF_some_elim hd hwf
      simp only [CursorOk, hc, hd] at hok
      have hnode : (c.movePrev s).node = some ((s.heap.mem n).prev) := by
        simp only [RawCursor.movePrev, hc, RawCursor.indexSub]
        rw [setIndex_node]
      unfold CursorOk
      rw [hnode, hd]
      exact ring_prev_mem hring n hok

/-- Cursor `insert_after` from any valid position preserves well-formedness. -/
theorem cursorInsertAfter_wf {T : Type} {s : St T} {ns : List Nat}
    {c : RawCursor} (hwf : StWF s ns) (hok : CursorOk c s ns)
    (hb : ns.length + 1 < USIZE) (x : T) :
    ∃ m p q, ns = p ++ q ∧ StWF (c.insertAfter s x).2 (p ++ m :: q) := by
  rw [cursorInsertAfter_state]
  cases hc : c.node with
  | none =>
    cases hd : s.dummy with
    | none =>
      obtain ⟨hns, hl0⟩ := StWF_none_elim hd hwf
      subst hns
      have hwf1 : StWF (s.init).2 [] := init_wf_none hd hwf
      have hd1 : ((s.init).2).dummy = some ((s.init).1) := by
        rw [init_none hd]
      have hcc : c.cinit s = ((s.init).1, { c with node := some (s.init).1 },
          (s.init).2) := by
        simp only [RawCursor.cinit, hc]
      rw [hcc]
      have := nodeInsertAfter_wf hd1 hwf1 (List.nil_append []).symm
        (by simpa using hb) x
      exact ⟨(s.init).2.heap.fresh, [], [], rfl, by simpa using this.1⟩
    | some d => simp [CursorOk, hc, hd] at hok
  | some n =>
    cases hd : s.dummy with
    | none => simp [CursorOk, hc, hd] at hok
    | some d =>
      simp only [CursorOk, hc, hd] at hok
      obtain ⟨p, q, hpq, hlast⟩ := mem_ring_decomp_after hok
      have hcc : c.cinit s = (n, c, s) := by
        simp only [RawCursor.cinit, hc]
      rw [hcc]
      have := nodeInsertAfter_wf hd hwf hpq hb x
      rw [hlast] at this
      exact ⟨s.heap.fresh, p, q, hpq, this.1⟩

/-- Cursor `insert_before` from any valid position preserves
well-formedness. -/
theorem cursorInsertBefore_wf {T : Type} {s : St T} {ns : List Nat}
    {c : RawCursor} (hwf : StWF s ns) (hok : CursorOk c s ns)
    (hb : ns.length + 1 < USIZE) (x : T) :
    ∃ m p q, ns = p ++ q ∧ StWF (c.insertBefore s x).2 (p ++ m :: q) := by
  rw [cursorInsertBefore_state]
  cases hc : c.node with
  | none =>
    cases hd : s.dummy with
    | none =>
      obtain ⟨hns, hl0⟩ := StWF_none_elim hd hwf
      subst hns
      have hwf1 : StWF (s.init).2 [] := init_wf_none hd hwf
      have hd1 : ((s.init).2).dummy = some ((s.init).1) := by
        rw [init_none hd]
      have hcc : c.cinit s = ((s.init).1, { c with node := some (s.init).1 },
          (s.init).2) := by
        simp only [RawCursor.cinit, hc]
      rw [hcc]
      obtain ⟨hring1, hlen1, hnd1, hfr1⟩ := StWF_some_elim hd1 hwf1
      have hfrd : (s.init).1 < (s.init).2.heap.fresh := hfr1 _ (by simp)
      have hprevmem : ((s.init).2.heap.mem ((s.init).1)).prev ∈
          (s.init).1 :: ([] : List Nat) := ring_prev_mem hring1 _ (by simp)
      have hprevd : ((s.init).2.heap.mem ((s.init).1)).prev = (s.init).1 := by
        simpa using hprevmem
      have hz : ((s.init).2.heap.mem (((s.init).2.heap.mem ((s.init).1)).prev)).next
          = (s.init).1 := by
        rw [hprevd]
        exact hring1.1.1
      have hfr2 : ((s.init).2.heap.mem ((s.init).1)).prev <
          (s.init).2.heap.fresh := by
        rw [hprevd]
        exact hfrd
      rw [nodeInsertBefore_eq _ _ _ hfrd hfr2 hz, hprevd]
      have := nodeInsertAfter_wf hd1 hwf1 (List.nil_append []).symm
        (by simpa using hb) x
      exact ⟨(s.init).2.heap.fresh, [], [], rfl, by simpa using this.1⟩
    | some d => simp [CursorOk, hc, hd] at hok
  | some n =>
    cases hd : s.dummy with
    | none => simp [CursorOk, hc, hd] at hok
    | some d =>
      simp only [CursorOk, hc, hd] at hok
      obtain ⟨hring, hlen, hnd, hfr⟩ := StWF_some_elim hd hwf
      obtain ⟨p, q, hpq, hq⟩ := mem_ring_decomp_before hok
      have hcc : c.cinit s = (n, c, s) := by
        simp only [RawCursor.cinit, hc]
      rw [hcc]
      -- the predecessor of `n` closes the prefix `p`
      have hcsplit : chain2 s.heap d (p ++ (q ++ [d])) := by
        have h0 : chain2 s.heap d (ns ++ [d]) := hring
        rw [hpq, List.append_assoc] at h0
        exact h0
      rw [chain2_split] at hcsplit
      have hlinkA : links s.heap (lastD d p) (firstD d q) := by
        cases hq2 : q with
        | nil =>
          have := hcsplit.2
          rw [hq2] at this
          simpa using this.1
        | cons qh qt =>
          have := hcsplit.2
          rw [hq2] at this
          simpa using this.1
      have hnfirst : n = firstD d q := by
        rcases hq with ⟨hq0, hnd0⟩ | ⟨q', hq'⟩
        · subst hq0; simpa using hnd0
        · subst hq'; simp
      have hprevn : (s.heap.mem n).prev = lastD d p := by
        rw [hnfirst]
        exact hlinkA.2
      have hnmem : n ∈ d :: ns := by
        rcases hq with ⟨hq0, hnd0⟩ | ⟨q', hq'⟩
        · simp [hnd0]
        · subst hq'
          rw [hpq]
          simp [List.mem_append]
      have hnfr : n < s.heap.fresh := hfr n hnmem
      have hpfr : (s.heap.mem n).prev < s.heap.fresh := by
        rw [hprevn]
        refine hfr _ ?_
        rcases List.mem_cons.1 (lastD_mem d p) with h1 | h1
        · simp [h1]
        · rw [hpq]
          simp [List.mem_append, h1]
      have hz : (s.heap.mem ((s.heap.mem n).prev)).next = n := by
        rw [hprevn, hnfirst]
        exact hlinkA.1
      rw [nodeInsertBefore_eq _ _ _ hnfr hpfr hz, hprevn]
      have := nodeInsertAfter_wf hd hwf hpq hb x
      exact ⟨s.heap.fresh, p, q, hpq, this.1⟩

/-- The list state produced by a cursor `remove_current`. -/
theorem cursorRemoveCurrent_wf {T : Type} [Inhabited T] {s : St T}
    {ns : List Nat} {c : RawCursor} (hwf : StWF s ns)
    (hok : CursorOk c s ns) :
    ∃ ns', StWF (c.removeCurrent s).2.2 ns' ∧ ns'.length ≤ ns.length := by
  cases hc : c.node with
  | none =>
    simp only [RawCursor.removeCurrent, hc]
    exact ⟨ns, hwf, le_rfl⟩
  | some n =>
    cases hd : s.dummy with
    | none => simp [CursorOk, hc, hd] at hok
    | some d =>
      simp only [CursorOk, hc, hd] at hok
      obtain ⟨hring, hlen, hnd, hfr⟩ := StWF_some_elim hd hwf
      by_cases hnd0 : n = d
      · subst hnd0
        have hdm : s.isDummy n = true := by
          simp [St.isDummy, hd]
        simp only [RawCursor.removeCurrent, hc, St.nodePop, hdm]
        exact ⟨ns, by simpa using hwf, le_rfl⟩
      · rcases List.mem_cons.1 hok with h1 | h1
        · exact absurd h1 hnd0
        obtain ⟨p, q, hpq⟩ := List.append_of_mem h1
        have hdm : s.isDummy n = false := by
          simp [St.isDummy, hd]
          intro he
          exact absurd he.symm hnd0
        have hwf' : StWF s (p ++ (n :: ([] : List Nat)) ++ q) := by
          rw [hpq] at hwf
          simpa using hwf
        have hs := sliceOff_wf hd hwf'
        refine ⟨p ++ q, ?_, ?_⟩
        · simp only [RawCursor.removeCurrent, hc, St.nodePop, hdm]
          simpa [St.popUnchecked] using hs.1
        · rw [hpq]
          simp

/-! ## `slice_off_as_list` -/

theorem satAdd_zero {k : Nat} (h : k < USIZE) : satAdd 0 k = k := by
  unfold satAdd
  omega

/-- `slice_off_as_list` of the run `rh :: rt` over explicit heap
expressions: the source list keeps `p ++ q`, the new list owns exactly the
run behind a fresh sentinel, and no payload is touched. -/
theorem sliceOffAsList_aux {T : Type} {s : St T} {d rh : Nat}
    {p rt q : List Nat} (hd : s.dummy = some d)
    (hwf : StWF s (p ++ (rh :: rt) ++ q)) (hk : rt.length + 1 < USIZE) :
    StWF
      { heap :=
          ((((s.heap.link (prevF s.heap rh)
              (nextF s.heap (lastD rh rt))).allocDummy).2).link
            ((s.heap.link (prevF s.heap rh)
              (nextF s.heap (lastD rh rt))).fresh) rh).link (lastD rh rt)
            (((((s.heap.link (prevF s.heap rh)
              (nextF s.heap (lastD rh rt))).allocDummy).2).mem
              ((s.heap.link (prevF s.heap rh)
                (nextF s.heap (lastD rh rt))).fresh)).next)
        dummy := s.dummy
        len := satSub s.len (rt.length + 1) } (p ++ q) ∧
    StWF
      { heap :=
          ((((s.heap.link (prevF s.heap rh)
              (nextF s.heap (lastD rh rt))).allocDummy).2).link
            ((s.heap.link (prevF s.heap rh)
              (nextF s.heap (lastD rh rt))).fresh) rh).link (lastD rh rt)
            (((((s.heap.link (prevF s.heap rh)
              (nextF s.heap (lastD rh rt))).allocDummy).2).mem
              ((s.heap.link (prevF s.heap rh)
                (nextF s.heap (lastD rh rt))).fresh)).next)
        dummy := some ((s.heap.link (prevF s.heap rh)
              (nextF s.heap (lastD rh rt))).fresh)
        len := satAdd 0 (rt.length + 1) } (rh :: rt) := by
  obtain ⟨hring, hlen, hnd, hfr⟩ := StWF_some_elim hd hwf
  obtain ⟨⟨hdp, hdr, hdq⟩, ⟨hpnd, hrnd, hqnd⟩, hpr, hpq2, hrq⟩ := nodup_parts hnd
  obtain ⟨hring', hchain', hprev', hnext'⟩ := ring_unlink hring hnd
  have hfr1 : (s.heap.link (prevF s.heap rh)
      (nextF s.heap (lastD rh rt))).fresh = s.heap.fresh := rfl
  rw [hfr1]
  have hag2 : ∀ u, u < s.heap.fresh →
      (((s.heap.link (prevF s.heap rh)
          (nextF s.heap (lastD rh rt))).allocDummy).2).mem u =
        ((s.heap.link (prevF s.heap rh)
          (nextF s.heap (lastD rh rt)))).mem u := by
    intro u hu
    have hne : ¬(u = s.heap.fresh) := Nat.ne_of_lt hu
    rw [Heap.allocDummy_mem]
    simp [hne]
  have hmemring : ∀ u ∈ d :: (p ++ q), u < s.heap.fresh := by
    intro u hu
    refine hfr u ?_
    simp only [List.mem_cons, List.mem_append] at hu ⊢
    tauto
  have hmemrun : ∀ u ∈ rh :: rt, u < s.heap.fresh := by
    intro u hu
    refine hfr u ?_
    simp only [List.mem_cons, List.mem_append] at hu ⊢
    tauto
  have hring2 : Ring (((s.heap.link (prevF s.heap rh)
      (nextF s.heap (lastD rh rt))).allocDummy).2) d (p ++ q) := by
    refine chain2_of_mem_agree ?_ hring'
    intro u hu
    refine hag2 u ?_
    refine hmemring u ?_
    rcases List.mem_cons.1 hu with h1 | h1
    · simp [h1]
    · rcases List.mem_append.1 h1 with h2 | h2
      · exact List.mem_cons_of_mem _ h2
      · simp at h2
        simp [h2]
  have hchain2 : chain2 (((s.heap.link (prevF s.heap rh)
      (nextF s.heap (lastD rh rt))).allocDummy).2) rh rt := by
    refine chain2_of_mem_agree ?_ hchain'
    intro u hu
    exact hag2 u (hmemrun u hu)
  have hdself : (((s.heap.link (prevF s.heap rh)
      (nextF s.heap (lastD rh rt))).allocDummy).2).mem s.heap.fresh =
      (⟨s.heap.fresh, s.heap.fresh, none⟩ : Node T) := by
    rw [Heap.allocDummy_mem]
    simp
  have hringB0 : Ring (((s.heap.link (prevF s.heap rh)
      (nextF s.heap (lastD rh rt))).allocDummy).2) s.heap.fresh
      (([] : List Nat) ++ ([] : List Nat)) := by
    refine ⟨⟨?_, ?_⟩, trivial⟩ <;> rw [hdself]
  have hndB0 : (s.heap.fresh :: (([] : List Nat) ++ ([] : List Nat))).Nodup := by
    simp
  have hdisjB : ∀ x ∈ rh :: rt,
      x ∉ s.heap.fresh :: (([] : List Nat) ++ ([] : List Nat)) := by
    intro x hx
    have := hmemrun x hx
    simp only [List.mem_cons, List.append_nil, List.not_mem_nil, or_false]
    omega
  have hspB := ring_splice_after hringB0 hndB0 hchain2 hdisjB hrnd
  have hrun_not_ring : ∀ u ∈ d :: (p ++ q), u ∉ rh :: rt := by
    intro u hu hru
    rcases List.mem_cons.1 hu with h2 | h2
    · exact hdr (h2 ▸ hru)
    · rcases List.mem_append.1 h2 with h3 | h3
      · exact hpr u h3 hru
      · exact hrq u hru h3
  constructor
  · -- A-side well-formedness
    refine StWF_some_intro hd ?_ ?_ ?_ ?_
    · show chain2 _ d ((p ++ q) ++ [d])
      refine chain2_frame _ _ ?_ ?_ hring2
      · intro u hu
        have humem : u ∈ d :: (p ++ q) := by
          rcases List.mem_cons.1 hu with h1 | h1
          · simp [h1]
          · rw [List.dropLast_concat] at h1
            exact List.mem_cons_of_mem _ h1
        have h1 : ¬(u = lastD rh rt) := by
          intro he
          refine hrun_not_ring u humem ?_
          rw [he]
          exact lastD_mem rh rt
        have h2 : ¬(u = s.heap.fresh) := Nat.ne_of_lt (hmemring u humem)
        rw [Heap.link_next, if_neg h1, Heap.link_next, if_neg h2]
      · intro u hu
        have humem : u ∈ d :: (p ++ q) := by
          rcases List.mem_append.1 hu with h1 | h1
          · exact List.mem_cons_of_mem _ h1
          · simp at h1
            simp [h1]
        have h1 : ¬(u = (((s.heap.link (prevF s.heap rh)
            (nextF s.heap (lastD rh rt))).allocDummy).2.mem s.heap.fresh).next) := by
          rw [hdself]
          exact Nat.ne_of_lt (hmemring u humem)
        have h2 : ¬(u = rh) := by
          intro he
          refine hrun_not_ring u humem ?_
          rw [he]
          exact List.mem_cons_self rh rt
        rw [Heap.link_prev, if_neg h1, Heap.link_prev, if_neg h2]
    · show satSub s.len (rt.length + 1) = _
      simp only [List.length_append, List.length_cons] at hlen
      simp only [satSub, List.length_append]
      omega
    · have hsl : List.Sublist (d :: (p ++ q))
          (d :: (p ++ (rh :: rt) ++ q)) := by
        refine List.Sublist.cons₂ d ?_
        rw [List.append_assoc]
        exact (List.sublist_append_right (rh :: rt) q).append_left p
      exact hnd.sublist hsl
    · intro n hn
      show n < ((_ : Heap T).allocDummy).2.fresh
      rw [Heap.allocDummy_fresh]
      have := hmemring n hn
      simp only [Heap.link_fresh]
      omega
  · -- B-side well-formedness
    refine StWF_some_intro rfl ?_ ?_ ?_ ?_
    · simpa [nextF] using hspB
    · show satAdd 0 (rt.length + 1) = _
      rw [satAdd_zero hk]
      simp
    · refine List.nodup_cons.2 ⟨?_, hrnd⟩
      intro hmem
      exact absurd rfl (Nat.ne_of_lt (hmemrun _ hmem))
    · intro n hn
      show n < ((_ : Heap T).allocDummy).2.fresh
      rw [Heap.allocDummy_fresh]
      simp only [Heap.link_fresh]
      rcases List.mem_cons.1 hn with h1 | h1
      · omega
      · have := hmemrun n h1
        omega

/-- `slice_off_as_list` of the run `rh :: rt`: projection form of
`sliceOffAsList_aux` plus the length, sentinel and payload frame facts. -/
theorem sliceOffAsList_wf {T : Type} {s : St T} {d rh : Nat}
    {p rt q : List Nat} (hd : s.dummy = some d)
    (hwf : StWF s (p ++ (rh :: rt) ++ q)) (hk : rt.length + 1 < USIZE) :
    StWF (s.sliceOffAsList rh (lastD rh rt) (rt.length + 1)).1 (p ++ q) ∧
    StWF (s.sliceOffAsList rh (lastD rh rt) (rt.length + 1)).2 (rh :: rt) ∧
    (s.sliceOffAsList rh (lastD rh rt) (rt.length + 1)).1.len =
      s.len - (rt.length + 1) ∧
    (s.sliceOffAsList rh (lastD rh rt) (rt.length + 1)).2.len =
      rt.length + 1 ∧
    (s.sliceOffAsList rh (lastD rh rt) (rt.length + 1)).1.dummy = some d ∧
    (∀ u, u < s.heap.fresh →
      ((s.sliceOffAsList rh (lastD rh rt) (rt.length + 1)).1.heap.mem u).item =
        (s.heap.mem u).item) := by
  have haux := sliceOffAsList_aux hd hwf hk
  refine ⟨haux.1, haux.2, rfl, ?_, hd, ?_⟩
  · show satAdd 0 (rt.length + 1) = _
    rw [satAdd_zero hk]
  · intro u hu
    have hne : ¬(u = s.heap.fresh) := Nat.ne_of_lt hu
    show ((((((s.heap.link (prevF s.heap rh)
        (nextF s.heap (lastD rh rt))).allocDummy).2).link
        ((s.heap.link (prevF s.heap rh) (nextF s.heap (lastD rh rt))).fresh)
        rh).link (lastD rh rt)
        (((((s.heap.link (prevF s.heap rh)
          (nextF s.heap (lastD rh rt))).allocDummy).2).mem
          ((s.heap.link (prevF s.heap rh)
            (nextF s.heap (lastD rh rt))).fresh)).next)).mem u).item =
      (s.heap.mem u).item
    rw [Heap.link_item, Heap.link_item, Heap.allocDummy_mem]
    simp [hne]

/-! ## Reachable states and the ring invariant (C5) -/

theorem iterate_next_chain {T : Type} {h : Heap T} {d : Nat} :
    ∀ (ns : List Nat) (a : Nat), chain2 h a (ns ++ [d]) →
      ∀ i, i ≤ ns.length → (nextF h)^[i + 1] a = firstD d (ns.drop i)
  | [], a, hc, 0, _ => by simpa using hc.1.1
  | [], _, _, i + 1, hi => by simp at hi
  | x :: xs, a, hc, 0, _ => by simpa using hc.1.1
  | x :: xs, a, hc, i + 1, hi => by
    rw [show i + 1 + 1 = (i + 1) + 1 from rfl, Function.iterate_succ_apply]
    have hx : nextF h a = x := hc.1.1
    rw [hx]
    exact iterate_next_chain xs x hc.2 i (by simpa using hi)

/-- Resolve a position/count pair into a contiguous run of the ring. -/
theorem slice_decomp {T : Type} {s : St T} {d : Nat} {ns : List Nat}
    (hd : s.dummy = some d) (hwf : StWF s ns) {i k : Nat}
    (hk : 0 < k) (hik : i + k ≤ s.len) :
    ∃ rh rt, ns = ns.take i ++ (rh :: rt) ++ ns.drop (i + k) ∧
      rt.length + 1 = k ∧
      posAddr s d i = rh ∧
      (nextF s.heap)^[k - 1] rh = lastD rh rt := by
  obtain ⟨hring, hlen, hnd, hfr⟩ := StWF_some_elim hd hwf
  rw [hlen] at hik
  have hilt : i < ns.length := by omega
  have hseg : ((ns.drop i).take k).length = k := by
    rw [List.length_take, List.length_drop]
    omega
  cases hsegc : (ns.drop i).take k with
  | nil =>
    rw [hsegc] at hseg
    simp at hseg
    omega
  | cons rh rt =>
    rw [hsegc] at hseg
    have hdecomp : ns = ns.take i ++ (rh :: rt) ++ ns.drop (i + k) := by
      conv_lhs => rw [← List.take_append_drop i ns]
      rw [List.append_assoc]
      congr 1
      conv_lhs => rw [← List.take_append_drop k (ns.drop i)]
      rw [hsegc, List.drop_drop]
    have hseg2 : rt.length + 1 = k := by simpa using hseg
    refine ⟨rh, rt, hdecomp, hseg2, ?_, ?_⟩
    · -- front address
      unfold posAddr
      have h1 := iterate_next_chain ns d hring i (le_of_lt hilt)
      rw [h1]
      have hdr2 : ns.drop i = (rh :: rt) ++ ns.drop (i + k) := by
        conv_lhs => rw [← List.take_append_drop k (ns.drop i)]
        rw [hsegc, List.drop_drop]
      rw [hdr2]
      rfl
    · -- back address
      have hrun : chain2 s.heap rh rt := by
        have hc : chain2 s.heap d (ns.take i ++ ((rh :: rt) ++
            (ns.drop (i + k) ++ [d]))) := by
          have h0 : chain2 s.heap d (ns ++ [d]) := hring
          rw [hdecomp] at h0
          rw [← List.append_assoc, ← List.append_assoc]
          exact h0
        rw [chain2_split] at hc
        have hc2 := hc.2
        rw [show (rh :: rt) ++ (ns.drop (i + k) ++ [d]) =
          rh :: (rt ++ (ns.drop (i + k) ++ [d])) from rfl, chain2_cons] at hc2
        have hc3 := hc2.2
        rw [chain2_split] at hc3
        exact hc3.1
      have h2 := chain2_iterate_next rt rh hrun
      have hkk : k - 1 = rt.length := by omega
      rw [hkk]
      exact h2

theorem cursorAtMoves_ok {T : Type} {s : St T} {ns : List Nat}
    (hwf : StWF s ns) : ∀ m, CursorOk (cursorAtMoves s m) s ns
  | 0 => cursorOk_new hwf
  | m + 1 => by
    unfold cursorAtMoves
    rw [Function.iterate_succ_apply']
    exact cursorOk_moveNext hwf (cursorAtMoves_ok hwf m)

/-- One guarded operation preserves well-formedness (and the length bound
that keeps saturating arithmetic exact). -/
theorem op_wf {T : Type} [Inhabited T] {s : St T} {ns : List Nat}
    (op : Op T) (hwf : StWF s ns) (hbound : ns.length < USIZE)
    (hg : op.guard s) :
    ∃ ns', StWF (op.apply s) ns' ∧ ns'.length < USIZE := by
  have hlen : s.len = ns.length := by
    cases hd : s.dummy with
    | none =>
      obtain ⟨hns, hl⟩ := StWF_none_elim hd hwf
      rw [hl, hns]
      rfl
    | some d => exact (StWF_some_elim hd hwf).2.1
  cases op with
  | pushFront x =>
    have hb : ns.length + 1 < USIZE := by
      have := hg
      simp only [Op.guard] at this
      omega
    obtain ⟨m, h2⟩ := pushFront_wf hwf hb x
    exact ⟨m :: ns, h2, by simpa using hb⟩
  | pushBack x =>
    have hb : ns.length + 1 < USIZE := by
      have := hg
      simp only [Op.guard] at this
      omega
    obtain ⟨m, h2⟩ := pushBack_wf hwf hb x
    exact ⟨ns ++ [m], h2, by simpa using hb⟩
  | popFront =>
    refine ⟨ns.tail, popFront_wf hwf, ?_⟩
    have := List.length_tail ns
    omega
  | popBack =>
    refine ⟨ns.dropLast, popBack_wf hwf, ?_⟩
    have := List.length_dropLast ns
    omega
  | insertAfter m x =>
    have hb : ns.length + 1 < USIZE := by
      have := hg
      simp only [Op.guard] at this
      omega
    obtain ⟨m', p, q, hpq, h2⟩ :=
      cursorInsertAfter_wf hwf (cursorAtMoves_ok hwf m) hb x
    refine ⟨p ++ m' :: q, h2, ?_⟩
    have : ns.length = p.length + q.length := by rw [hpq]; simp
    simp only [List.length_append, List.length_cons]
    omega
  | insertBefore m x =>
    have hb : ns.length + 1 < USIZE := by
      have := hg
      simp only [Op.guard] at this
      omega
    obtain ⟨m', p, q, hpq, h2⟩ :=
      cursorInsertBefore_wf hwf (cursorAtMoves_ok hwf m) hb x
    refine ⟨p ++ m' :: q, h2, ?_⟩
    have : ns.length = p.length + q.length := by rw [hpq]; simp
    simp only [List.length_append, List.length_cons]
    omega
  | removeCurrent m =>
    obtain ⟨ns', h2, hle⟩ :=
      cursorRemoveCurrent_wf hwf (cursorAtMoves_ok hwf m)
    exact ⟨ns', h2, by omega⟩
  | sliceOff i k =>
    obtain ⟨hk, hik⟩ : 0 < k ∧ i + k ≤ s.len := hg
    cases hd : s.dummy with
    | none =>
      refine ⟨ns, ?_, hbound⟩
      simp only [Op.apply, hd]
      exact hwf
    | some d =>
      obtain ⟨rh, rt, hdecomp, hkk, hpos, hback⟩ :=
        slice_decomp hd hwf hk hik
      have hwf' : StWF s (ns.take i ++ (rh :: rt) ++ ns.drop (i + k)) := by
        rw [← hdecomp]
        exact hwf
      have hs := sliceOff_wf hd hwf'
      refine ⟨ns.take i ++ ns.drop (i + k), ?_, ?_⟩
      · simp only [Op.apply, hd]
        rw [hpos, hback]
        rw [hkk] at hs
        exact hs.1
      · have h3 : ns.length = (ns.take i).length + (rt.length + 1) +
            (ns.drop (i + k)).length := by
          conv_lhs => rw [hdecomp]
          simp
          omega
        simp only [List.length_append]
        omega
  | sliceOffAsList i k =>
    obtain ⟨hk, hik⟩ : 0 < k ∧ i + k ≤ s.len := hg
    cases hd : s.dummy with
    | none =>
      refine ⟨ns, ?_, hbound⟩
      simp only [Op.apply, hd]
      exact hwf
    | some d =>
      obtain ⟨rh, rt, hdecomp, hkk, hpos, hback⟩ :=
        slice_decomp hd hwf hk hik
      have hwf' : StWF s (ns.take i ++ (rh :: rt) ++ ns.drop (i + k)) := by
        rw [← hdecomp]
        exact hwf
      have hkb : rt.length + 1 < USIZE := by
        have h3 : ns.length = (ns.take i).length + (rt.length + 1) +
            (ns.drop (i + k)).length := by
          conv_lhs => rw [hdecomp]
          simp
          omega
        omega
      have hs := sliceOffAsList_wf hd hwf' hkb
      refine ⟨ns.take i ++ ns.drop (i + k), ?_, ?_⟩
      · simp only [Op.apply, hd]
        rw [hpos, hback]
        rw [hkk] at hs
        exact hs.1
      · have h3 : ns.length = (ns.take i).length + (rt.length + 1) +
            (ns.drop (i + k)).length := by
          conv_lhs => rw [hdecomp]
          simp
          omega
        simp only [List.length_append]
        omega

/-- Every reachable state is a well-formed ring. -/
theorem reachable_wf {T : Type} [Inhabited T] :
    ∀ {s : St T}, Reachable s → ∃ ns, StWF s ns ∧ ns.length < USIZE := by
  intro s h
  induction h with
  | new =>
    refine ⟨[], ⟨rfl, rfl⟩, ?_⟩
    show 0 < USIZE
    norm_num [USIZE]
  | step s' op hr hg ih =>
    obtain ⟨ns, hwf, hbound⟩ := ih
    exact op_wf op hwf hbound hg

/-! ## Iteration agreement and frame helpers -/

theorem StWF_len {T : Type} {s : St T} {ns : List Nat} (hwf : StWF s ns) :
    s.len = ns.length := by
  cases hd : s.dummy with
  | none =>
    obtain ⟨h1, h2⟩ := StWF_none_elim hd hwf
    subst h1
    simpa using h2
  | some d => exact (StWF_some_elim hd hwf).2.1

/-- A chain survives an item-only heap update. -/
theorem chain2_setItem {T : Type} {h : Heap T} {a ptr : Nat} {v : Option T}
    {l : List Nat} (hc : chain2 h a l) : chain2 (h.setItem ptr v) a l := by
  refine chain2_frame l a ?_ ?_ hc <;> intro u _ <;> simp

/-- Well-formedness survives an item-only heap update. -/
theorem StWF_setItem {T : Type} {s : St T} {ns : List Nat} (ptr : Nat)
    (v : Option T) (hwf : StWF s ns) :
    StWF { s with heap := s.heap.setItem ptr v } ns := by
  cases hd : s.dummy with
  | none =>
    obtain ⟨h1, h2⟩ := StWF_none_elim hd hwf
    simp only [StWF, hd]
    exact ⟨h1, h2⟩
  | some d =>
    obtain ⟨h1, h2, h3, h4⟩ := StWF_some_elim hd hwf
    refine StWF_some_intro rfl (chain2_setItem h1) h2 h3 ?_
    intro n hn
    exact h4 n hn

/-- Consecutive elements of a ring are linked. -/
theorem ring_consec {T : Type} {h : Heap T} {d a b : Nat} {p q : List Nat}
    (hring : Ring h d (p ++ a :: b :: q)) :
    nextF h a = b ∧ prevF h b = a := by
  have h0 : chain2 h d (p ++ (a :: b :: (q ++ [d]))) := by
    have h1 : chain2 h d ((p ++ a :: b :: q) ++ [d]) := hring
    simpa using h1
  rw [chain2_split] at h0
  exact ⟨h0.2.2.1.1, h0.2.2.1.2⟩

/-- The sentinel's prev-link is the ring's last real node. -/
theorem ring_prev_dummy {T : Type} {h : Heap T} {d : Nat} {ns : List Nat}
    (hring : Ring h d ns) : prevF h d = lastD d ns := by
  have h0 : chain2 h d (ns ++ [d]) := hring
  rw [chain2_split] at h0
  exact h0.2.1.2

theorem pays_congr_mem {T : Type} [Inhabited T] {h h' : Heap T} :
    ∀ (l : List Nat), (∀ u ∈ l, (h'.mem u).item = (h.mem u).item) →
      pays h' l = pays h l
  | [], _ => rfl
  | x :: xs, hm => by
    show payload h' x :: pays h' xs = payload h x :: pays h xs
    rw [pays_congr_mem xs (fun u hu => hm u (List.mem_cons_of_mem _ hu))]
    unfold payload
    rw [hm x (List.mem_cons_self x xs)]

/-- Full forward iteration yields exactly the ring's payloads in order. -/
theorem iterFwd_eq {T : Type} [Inhabited T] {s : St T} {ns : List Nat}
    (hwf : StWF s ns) : s.iterFwd = pays s.heap ns := by
  cases hd : s.dummy with
  | none =>
    obtain ⟨h1, _⟩ := StWF_none_elim hd hwf
    subst h1
    simp [St.iterFwd, St.rawIter, hd, pays]
  | some d =>
    obtain ⟨hring, hlen, _, _⟩ := StWF_some_elim hd hwf
    have hit : s.rawIter = some ⟨nextF s.heap d, prevF s.heap d, s.len⟩ := by
      simp [St.rawIter, hd]
    have hcol : collectFwdA s.heap (nextF s.heap d) s.len = ns := by
      rw [hlen, chain2_collectF (ns ++ [d]) d hring ns.length (by simp),
        List.take_left]
    simp [St.iterFwd, hit, hcol]

/-- Full backward iteration yields the ring's payloads reversed. -/
theorem iterBwd_eq {T : Type} [Inhabited T] {s : St T} {ns : List Nat}
    (hwf : StWF s ns) : s.iterBwd = (pays s.heap ns).reverse := by
  cases hd : s.dummy with
  | none =>
    obtain ⟨h1, _⟩ := StWF_none_elim hd hwf
    subst h1
    simp [St.iterBwd, St.rawIter, hd, pays]
  | some d =>
    obtain ⟨hring, hlen, _, _⟩ := StWF_some_elim hd hwf
    have hsplit : chain2 s.heap d ns ∧ chain2 s.heap (lastD d ns) [d] := by
      rw [← chain2_split]
      exact hring
    have hprevd : prevF s.heap d = lastD d ns := ring_prev_dummy hring
    have hcol : collectBwdA s.heap (lastD d ns) ns.length = ns.reverse := by
      rw [chain2_collectB ns d hsplit.1 ns.length le_rfl,
        List.take_append_of_le_length (by simp)]
      simp
    have hit : s.rawIter = some ⟨nextF s.heap d, prevF s.heap d, s.len⟩ := by
      simp [St.rawIter, hd]
    simp only [St.iterBwd, hit]
    rw [hprevd, hlen, hcol]
    simp [pays]

theorem iterLen_eq {T : Type} {s : St T} {ns : List Nat} (hwf : StWF s ns) :
    s.iterLen = s.len := by
  cases hd : s.dummy with
  | none =>
    obtain ⟨_, h2⟩ := StWF_none_elim hd hwf
    simp [St.iterLen, St.rawIter, hd, h2]
  | some d => simp [St.iterLen, St.rawIter, hd]

/-- `k` calls to `RawIter::next` leave `len - k` remaining, keep the back
handle, and the future forward yields are the tail dropped by `k`. -/
theorem stepF_collect {T : Type} {h : Heap T} :
    ∀ (k : Nat) (it : RawIterSt), k ≤ it.len →
      (RawIterSt.stepF h k it).len = it.len - k ∧
      (RawIterSt.stepF h k it).back = it.back ∧
      collectFwdA h (RawIterSt.stepF h k it).front
          ((RawIterSt.stepF h k it).len) =
        (collectFwdA h it.front it.len).drop k
  | 0, it, _ => by simp [RawIterSt.stepF]
  | k + 1, it, hk => by
    have hlen : ¬(it.len = 0) := by omega
    have hnext : it.next h =
        some (it.front, ⟨nextF h it.front, it.back, it.len - 1⟩) := by
      simp [RawIterSt.next, hlen]
    have hstep : RawIterSt.stepF h (k + 1) it =
        RawIterSt.stepF h k ⟨nextF h it.front, it.back, it.len - 1⟩ := by
      simp [RawIterSt.stepF, hnext]
    obtain ⟨ih1, ih2, ih3⟩ := stepF_collect k
      ⟨nextF h it.front, it.back, it.len - 1⟩ (by show k ≤ it.len - 1; omega)
    rw [hstep]
    refine ⟨?_, ih2, ?_⟩
    · rw [ih1]
      show it.len - 1 - k = it.len - (k + 1)
      omega
    · rw [ih3]
      cases hl : it.len with
      | zero => omega
      | succ n =>
        show (collectFwdA h (nextF h it.front) n).drop k =
          (collectFwdA h it.front (n + 1)).drop (k + 1)
        rw [show collectFwdA h it.front (n + 1) =
          it.front :: collectFwdA h (nextF h it.front) n from rfl,
          List.drop_succ_cons]

theorem payload_of_item {T : Type} [Inhabited T] {h : Heap T} {n : Nat} {x : T}
    (hit : (h.mem n).item = some x) : payload h n = x := by
  unfold payload
  rw [hit]
  rfl

/-- `index_add(1)` really adds one when the stored index is the old length
and the list just grew by one. -/
theorem indexAdd_one_at_len {T : Type} {s₂ : St T} {c : RawCursor} {L : Nat}
    (hiL : c.index = L) (hlen2 : s₂.len = L + 1) (hbound : L + 1 < USIZE) :
    (c.indexAdd 1 s₂).index = c.index + 1 := by
  unfold RawCursor.indexAdd RawCursor.setIndex
  rw [hiL, wrapAdd_small (by omega), hlen2, if_neg (by omega)]

/-! ## DrainFilter loop analysis -/

/-- The forward drain loop, run with fuel equal to the unvisited count:
either it exhausts the unvisited run keeping every element (`none`), or it
keeps a false-predicate prefix `u1`, pops exactly the match `m`, yields its
(possibly predicate-updated) payload, and leaves the iterator spanning the
untouched suffix `u2`. -/
theorem drainLoopF_spec {T : Type} [Inhabited T] (pred : T → Bool × T)
    (kb : List Nat) (d : Nat) :
    ∀ (u kf : List Nat) (it : RawIterSt) (r : Nat) (s : St T),
      s.dummy = some d → StWF s (kf ++ u ++ kb) → it.len = u.length →
      (∀ hu : u ≠ [], it.front = u.head hu ∧ it.back = u.getLast hu) →
      r = kf.length + kb.length → r + u.length < USIZE →
      ((drainLoopF pred u.length it r s).1 = none →
        (drainLoopF pred u.length it r s).2.2.2.dummy = some d ∧
        StWF (drainLoopF pred u.length it r s).2.2.2 (kf ++ u ++ kb) ∧
        (drainLoopF pred u.length it r s).2.1.len = 0 ∧
        (drainLoopF pred u.length it r s).2.2.1 =
          (kf ++ u).length + kb.length) ∧
      (∀ x, (drainLoopF pred u.length it r s).1 = some x →
        ∃ u1 m u2, u = u1 ++ m :: u2 ∧
          x = (pred (payload s.heap m)).2 ∧
          (drainLoopF pred u.length it r s).2.2.2.dummy = some d ∧
          StWF (drainLoopF pred u.length it r s).2.2.2
            (kf ++ u1 ++ (u2 ++ kb)) ∧
          (drainLoopF pred u.length it r s).2.1.len = u2.length ∧
          (∀ hu2 : u2 ≠ [],
            (drainLoopF pred u.length it r s).2.1.front = u2.head hu2 ∧
            (drainLoopF pred u.length it r s).2.1.back = u2.getLast hu2) ∧
          (drainLoopF pred u.length it r s).2.2.1 =
            (kf ++ u1).length + kb.length) := by
  intro u
  induction u with
  | nil =>
    intro kf it r s hd hwf hlen hfb hret hbound
    constructor
    · intro _
      refine ⟨hd, hwf, hlen, ?_⟩
      simp [drainLoopF, hret]
    · intro x hx
      simp [drainLoopF] at hx
  | cons uh ut ih =>
    intro kf it r s hd hwf hlen hfb hret hbound
    obtain ⟨hring, hslen, hnd, hfr⟩ := StWF_some_elim hd hwf
    have hfront : it.front = uh := by
      simpa using (hfb (by simp)).1
    have hn0 : ¬(it.len = 0) := by
      rw [hlen]
      simp
    have hnext : it.next s.heap =
        some (uh, ⟨nextF s.heap uh, it.back, ut.length⟩) := by
      simp [RawIterSt.next, hn0, hfront, hlen]
    have hndrun : (uh :: ut).Nodup := by
      refine hnd.sublist ?_
      refine List.Sublist.cons d ?_
      exact ((List.sublist_append_right kf (uh :: ut)).trans
        (List.sublist_append_left (kf ++ (uh :: ut)) kb))
    have hndu : uh ∉ ut := (List.nodup_cons.1 hndrun).1
    have hfb2 : ∀ hu : ut ≠ [],
        nextF s.heap uh = ut.head hu ∧ it.back = ut.getLast hu := by
      cases ut with
      | nil => intro hu; exact absurd rfl hu
      | cons uth ut' =>
        intro hu
        have hring2 : Ring s.heap d (kf ++ uh :: uth :: (ut' ++ kb)) := by
          simpa using hring
        refine ⟨?_, ?_⟩
        · simpa using (ring_consec hring2).1
        · have h2 := (hfb (by simp)).2
          rw [h2]
          simp [List.getLast_cons]
    cases hres : (pred (payload s.heap uh)).1 with
    | true =>
      -- the head matches: pop it and stop
      obtain ⟨x0, s20, hpop⟩ : ∃ x0 s20,
          St.popUnchecked { s with heap := s.heap.setItem uh (some ((pred (payload s.heap uh)).2)) } uh = (x0, s20) :=
        ⟨_, _, rfl⟩
      have hout : drainLoopF pred (uh :: ut).length it r s =
          (some x0, ⟨nextF s.heap uh, it.back, ut.length⟩, r, s20) := by
        simp only [List.length_cons, drainLoopF, hnext, hres, if_true]
        rw [hpop]
      have hwf1 : StWF { s with heap := s.heap.setItem uh (some ((pred (payload s.heap uh)).2)) }
          (kf ++ (uh :: ([] : List Nat)) ++ (ut ++ kb)) := by
        have h2 := StWF_setItem uh (some ((pred (payload s.heap uh)).2)) hwf
        simpa using h2
      have hd1 : ({ s with heap := s.heap.setItem uh (some ((pred (payload s.heap uh)).2)) } : St T).dummy = some d := hd
      have hs := sliceOff_wf hd1 hwf1
      have hs20 : s20 = ({ s with heap := s.heap.setItem uh (some ((pred (payload s.heap uh)).2)) }.sliceOff uh uh 1).2 := by
        have h2 := congrArg Prod.snd hpop
        exact h2.symm
      have hyield2 : ({ s with heap := s.heap.setItem uh (some ((pred (payload s.heap uh)).2)) }.sliceOff uh uh 1).1 =
          pays ({ s with heap := s.heap.setItem uh (some ((pred (payload s.heap uh)).2)) } : St T).heap
            (uh :: ([] : List Nat)) := by
        simpa using hs.2.2.2.1
      have hx0 : x0 = (pred (payload s.heap uh)).2 := by
        have h1 : (St.popUnchecked { s with heap := s.heap.setItem uh (some ((pred (payload s.heap uh)).2)) } uh).1 = x0 :=
          congrArg Prod.fst hpop
        rw [← h1]
        show ({ s with heap := s.heap.setItem uh (some ((pred (payload s.heap uh)).2)) }.sliceOff uh uh 1).1.headI = _
        rw [hyield2]
        show payload _ uh = _
        refine payload_of_item ?_
        show ((s.heap.setItem uh _).mem uh).item = _
        simp
      constructor
      · intro hnone
        rw [hout] at hnone
        simp at hnone
      · intro x hx
        rw [hout] at hx
        have hxx : x = x0 := by
          simpa using hx.symm
        refine ⟨[], uh, ut, by simp, ?_, ?_, ?_, ?_, ?_, ?_⟩
        · rw [hxx, hx0]
        · rw [hout]
          show s20.dummy = some d
          rw [hs20]
          simpa using hs.2.2.1
        · rw [hout]
          show StWF s20 (kf ++ [] ++ (ut ++ kb))
          rw [hs20]
          have h2 := hs.1
          simpa using h2
        · rw [hout]
        · intro hu2
          rw [hout]
          exact hfb2 hu2
        · rw [hout]
          show r = (kf ++ []).length + kb.length
          rw [hret]
          simp
    | false =>
      -- the head is kept: write back the payload and continue
      have hout : drainLoopF pred (uh :: ut).length it r s =
          drainLoopF pred ut.length ⟨nextF s.heap uh, it.back, ut.length⟩
            (satAdd r 1)
            { s with heap := s.heap.setItem uh (some ((pred (payload s.heap uh)).2)) } := by
        simp only [List.length_cons, drainLoopF, hnext, hres]
        simp
      have hwf1 : StWF { s with heap := s.heap.setItem uh (some ((pred (payload s.heap uh)).2)) }
          ((kf ++ [uh]) ++ ut ++ kb) := by
        have h2 := StWF_setItem uh (some ((pred (payload s.heap uh)).2)) hwf
        simpa using h2
      have hd1 : ({ s with heap := s.heap.setItem uh (some ((pred (payload s.heap uh)).2)) } : St T).dummy = some d := hd
      have hsat : satAdd r 1 = r + 1 := satAdd_one (by omega)
      have hret1 : satAdd r 1 = (kf ++ [uh]).length + kb.length := by
        rw [hsat, hret]
        simp
        omega
      have hbound1 : satAdd r 1 + ut.length < USIZE := by
        rw [hsat]
        simp only [List.length_cons] at hbound
        omega
      have hih := ih (kf ++ [uh]) ⟨nextF s.heap uh, it.back, ut.length⟩
        (satAdd r 1)
        { s with heap := s.heap.setItem uh (some ((pred (payload s.heap uh)).2)) }
        hd1 hwf1 rfl hfb2 hret1 hbound1
      rw [hout]
      constructor
      · intro hnone
        obtain ⟨g1, g2, g3, g4⟩ := hih.1 hnone
        refine ⟨g1, by simpa using g2, g3, ?_⟩
        rw [g4]
        simp
      · intro x hx
        obtain ⟨u1, m, u2, hdec, hxval, g1, g2, g3, g4, g5⟩ := hih.2 x hx
        have hmut : m ∈ ut := by
          rw [hdec]
          simp
        have hmne : ¬(m = uh) := by
          intro he
          exact hndu (he ▸ hmut)
        refine ⟨uh :: u1, m, u2, by rw [hdec]; simp, ?_, g1, by simpa using g2,
          g3, g4, ?_⟩
        · rw [hxval]
          show (pred (payload (s.heap.setItem uh _) m)).2 = _
          unfold payload
          rw [Heap.setItem_item]
          simp [hmne]
        · rw [g5]
          simp

theorem exists_concat {l : List Nat} (h : l ≠ []) : ∃ p a, l = p ++ [a] := by
  induction l using List.reverseRecOn with
  | nil => exact absurd rfl h
  | append_singleton p a _ => exact ⟨p, a, rfl⟩

/-- The backward drain loop (over `rev()`), run with fuel equal to the
unvisited count: either it exhausts the run keeping every element, or it
keeps a false-predicate suffix `u2`, pops exactly the match `m`, and leaves
the iterator spanning the untouched prefix `u1`. -/
theorem drainLoopB_spec {T : Type} [Inhabited T] (pred : T → Bool × T)
    (kf : List Nat) (d : Nat) :
    ∀ (u kb : List Nat) (it : RawIterSt) (r : Nat) (s : St T),
      s.dummy = some d → StWF s (kf ++ u ++ kb) → it.len = u.length →
      (∀ hu : u ≠ [], it.front = u.head hu ∧ it.back = u.getLast hu) →
      r = kf.length + kb.length → r + u.length < USIZE →
      ((drainLoopB pred u.length it r s).1 = none →
        (drainLoopB pred u.length it r s).2.2.2.dummy = some d ∧
        StWF (drainLoopB pred u.length it r s).2.2.2 (kf ++ u ++ kb) ∧
        (drainLoopB pred u.length it r s).2.1.len = 0 ∧
        (drainLoopB pred u.length it r s).2.2.1 =
          kf.length + (u ++ kb).length) ∧
      (∀ x, (drainLoopB pred u.length it r s).1 = some x →
        ∃ u1 m u2, u = u1 ++ m :: u2 ∧
          x = (pred (payload s.heap m)).2 ∧
          (drainLoopB pred u.length it r s).2.2.2.dummy = some d ∧
          StWF (drainLoopB pred u.length it r s).2.2.2
            (kf ++ u1 ++ (u2 ++ kb)) ∧
          (drainLoopB pred u.length it r s).2.1.len = u1.length ∧
          (∀ hu1 : u1 ≠ [],
            (drainLoopB pred u.length it r s).2.1.front = u1.head hu1 ∧
            (drainLoopB pred u.length it r s).2.1.back = u1.getLast hu1) ∧
          (drainLoopB pred u.length it r s).2.2.1 =
            kf.length + (u2 ++ kb).length) := by
  intro u
  induction u using List.reverseRecOn with
  | nil =>
    intro kb it r s hd hwf hlen hfb hret hbound
    constructor
    · intro _
      refine ⟨hd, hwf, hlen, ?_⟩
      simp [drainLoopB, hret]
    · intro x hx
      simp [drainLoopB] at hx
  | append_singleton u2 ub ih =>
    intro kb it r s hd hwf hlen hfb hret hbound
    obtain ⟨hring, hslen, hnd, hfr⟩ := StWF_some_elim hd hwf
    have hback : it.back = ub := by
      have h2 := (hfb (by simp)).2
      rw [h2]
      simp
    have hn0 : ¬(it.len = 0) := by
      rw [hlen]
      simp
    have hnextB : it.nextBack s.heap =
        some (ub, ⟨it.front, prevF s.heap ub, u2.length⟩) := by
      simp [RawIterSt.nextBack, hn0, hback, hlen]
    have hndrun : (u2 ++ [ub]).Nodup := by
      refine hnd.sublist ?_
      refine List.Sublist.cons d ?_
      exact ((List.sublist_append_right kf (u2 ++ [ub])).trans
        (List.sublist_append_left (kf ++ (u2 ++ [ub])) kb))
    have hndu : ub ∉ u2 := by
      have h2 := hndrun
      simp [List.nodup_append] at h2
      intro hmem
      exact h2.2 hmem
    have hfb2 : ∀ hu : u2 ≠ [],
        it.front = u2.head hu ∧ prevF s.heap ub = u2.getLast hu := by
      intro hu
      obtain ⟨p2, a, hpa⟩ := exists_concat hu
      subst hpa
      constructor
      · have h1 := (hfb (by simp)).1
        rw [h1]
        cases p2 with
        | nil => simp
        | cons b rest => simp
      · have hring2 : Ring s.heap d (kf ++ p2 ++ a :: ub :: kb) := by
          simpa using hring
        have h2 := (ring_consec hring2).2
        rw [h2]
        simp
    have hlen1 : (u2 ++ [ub]).length = u2.length + 1 := by simp
    rw [hlen1]
    cases hres : (pred (payload s.heap ub)).1 with
    | true =>
      obtain ⟨x0, s20, hpop⟩ : ∃ x0 s20,
          St.popUnchecked { s with heap := s.heap.setItem ub (some ((pred (payload s.heap ub)).2)) } ub = (x0, s20) :=
        ⟨_, _, rfl⟩
      have hout : drainLoopB pred (u2.length + 1) it r s =
          (some x0, ⟨it.front, prevF s.heap ub, u2.length⟩, r, s20) := by
        simp only [drainLoopB, hnextB, hres, if_true]
        rw [hpop]
      have hwf1 : StWF { s with heap := s.heap.setItem ub (some ((pred (payload s.heap ub)).2)) }
          ((kf ++ u2) ++ (ub :: ([] : List Nat)) ++ kb) := by
        have h2 := StWF_setItem ub (some ((pred (payload s.heap ub)).2)) hwf
        simpa using h2
      have hd1 : ({ s with heap := s.heap.setItem ub (some ((pred (payload s.heap ub)).2)) } : St T).dummy = some d := hd
      have hs := sliceOff_wf hd1 hwf1
      have hs20 : s20 = ({ s with heap := s.heap.setItem ub (some ((pred (payload s.heap ub)).2)) }.sliceOff ub ub 1).2 := by
        have h2 := congrArg Prod.snd hpop
        exact h2.symm
      have hyield2 : ({ s with heap := s.heap.setItem ub (some ((pred (payload s.heap ub)).2)) }.sliceOff ub ub 1).1 =
          pays ({ s with heap := s.heap.setItem ub (some ((pred (payload s.heap ub)).2)) } : St T).heap
            (ub :: ([] : List Nat)) := by
        simpa using hs.2.2.2.1
      have hx0 : x0 = (pred (payload s.heap ub)).2 := by
        have h1 : (St.popUnchecked { s with heap := s.heap.setItem ub (some ((pred (payload s.heap ub)).2)) } ub).1 = x0 :=
          congrArg Prod.fst hpop
        rw [← h1]
        show ({ s with heap := s.heap.setItem ub (some ((pred (payload s.heap ub)).2)) }.sliceOff ub ub 1).1.headI = _
        rw [hyield2]
        show payload _ ub = _
        refine payload_of_item ?_
        show ((s.heap.setItem ub _).mem ub).item = _
        simp
      constructor
      · intro hnone
        rw [hout] at hnone
        simp at hnone
      · intro x hx
        rw [hout] at hx
        have hxx : x = x0 := by
          simpa using hx.symm
        refine ⟨u2, ub, [], rfl, ?_, ?_, ?_, ?_, ?_, ?_⟩
        · rw [hxx, hx0]
        · rw [hout]
          show s20.dummy = some d
          rw [hs20]
          simpa using hs.2.2.1
        · rw [hout]
          show StWF s20 (kf ++ u2 ++ ([] ++ kb))
          rw [hs20]
          have h2 := hs.1
          simpa using h2
        · rw [hout]
        · intro hu1
          rw [hout]
          exact hfb2 hu1
        · rw [hout]
          show r = kf.length + ([] ++ kb).length
          rw [hret]
          simp
    | false =>
      have hout : drainLoopB pred (u2.length + 1) it r s =
          drainLoopB pred u2.length ⟨it.front, prevF s.heap ub, u2.length⟩
            (satAdd r 1)
            { s with heap := s.heap.setItem ub (some ((pred (payload s.heap ub)).2)) } := by
        simp only [drainLoopB, hnextB, hres]
        simp
      have hwf1 : StWF { s with heap := s.heap.setItem ub (some ((pred (payload s.heap ub)).2)) }
          (kf ++ u2 ++ (ub :: kb)) := by
        have h2 := StWF_setItem ub (some ((pred (payload s.heap ub)).2)) hwf
        simpa using h2
      have hd1 : ({ s with heap := s.heap.setItem ub (some ((pred (payload s.heap ub)).2)) } : St T).dummy = some d := hd
      have hsat : satAdd r 1 = r + 1 := satAdd_one (by simp only [List.length_append, List.length_cons, List.length_nil] at hbound; omega)
      have hret1 : satAdd r 1 = kf.length + (ub :: kb).length := by
        rw [hsat, hret]
        simp
        omega
      have hbound1 : satAdd r 1 + u2.length < USIZE := by
        rw [hsat]
        simp only [List.length_append, List.length_cons, List.length_nil] at hbound
        omega
      have hih := ih (ub :: kb) ⟨it.front, prevF s.heap ub, u2.length⟩
        (satAdd r 1)
        { s with heap := s.heap.setItem ub (some ((pred (payload s.heap ub)).2)) }
        hd1 hwf1 rfl hfb2 hret1 hbound1
      rw [hout]
      constructor
      · intro hnone
        obtain ⟨g1, g2, g3, g4⟩ := hih.1 hnone
        refine ⟨g1, by simpa using g2, g3, ?_⟩
        rw [g4]
        simp
      · intro x hx
        obtain ⟨u1a, m, u2a, hdec, hxval, g1, g2, g3, g4, g5⟩ := hih.2 x hx
        have hmut : m ∈ u2 := by
          rw [hdec]
          simp
        have hmne : ¬(m = ub) := by
          intro he
          exact hndu (he ▸ hmut)
        refine ⟨u1a, m, u2a ++ [ub], by rw [hdec]; simp, ?_, g1,
          by simpa using g2, g3, g4, ?_⟩
        · rw [hxval]
          show (pred (payload (s.heap.setItem ub _) m)).2 = _
          unfold payload
          rw [Heap.setItem_item]
          simp [hmne]
        · rw [g5]
          simp

/-! ## Helper lemmas about `clear` -/

/-- `clear` never writes the length field. -/
theorem clear_len {T : Type} (s : St T) : (s.clear).len = s.len := by
  cases h : s.dummy <;> simp [St.clear, h]

/-- `clear` never writes the sentinel field. -/
theorem clear_dummy {T : Type} (s : St T) : (s.clear).dummy = s.dummy := by
  cases h : s.dummy <;> simp [St.clear, h]

/-- **C1.** The claim states that after `clear()` the list is empty
(`len() = 0`, `is_empty() = true`, pops return no value) while the sentinel
persists.  The source of `clear` (mod.rs 45–53) deallocates every
non-sentinel node but never resets `self.len` and never re-links the
sentinel to itself, so on the one-element list `[1]` the cleared list
reports `len() = 1` and `is_empty() = false`, and its sentinel still links
to the freed node (so `pop_front` performs a use-after-free read, here
yielding the stale payload `1` instead of no value).  Only the sentinel
half of the claim holds: the sentinel address stays allocated. -/
theorem clear_leaves_stale_length :
    ((((St.new Nat).pushBack 1).clear).length = 1 ∧
      (((St.new Nat).pushBack 1).clear).isEmpty = false ∧
      ((((St.new Nat).pushBack 1).clear).popFront).1 = some 1) ∧
    (((St.new Nat).pushBack 1).clear).dummy = some 1 ∧
      1 ∈ (((St.new Nat).pushBack 1).clear).heap.alloc := by
  decide

/-- **C2.** The claim states the cursor index invariant (`i ∈ [0, len]`,
`i = len` iff the cursor is at the sentinel, wrap-around modulo `len + 1`,
in particular `move_prev` from index 0 wraps to `len`).  `index_sub`
(cursor.rs 40–42) computes `usize` wrapping subtraction and reduces modulo
`len + 1` only once, so from index 0 it produces `(2^64 - 1) % (len + 1)`,
which equals `len` only when `len + 1` divides `2^64`.  On the two-element
list, one `move_next` (to index 0, the front node) followed by `move_prev`
leaves the cursor on the sentinel with stored index `0 ≠ len = 2`, and
`index()` reports `some 0` at the ghost position. -/
theorem cursor_move_prev_underflow :
    (((RawCursor.new (((St.new Nat).pushBack 10).pushBack 20)).moveNext
          (((St.new Nat).pushBack 10).pushBack 20)).movePrev
        (((St.new Nat).pushBack 10).pushBack 20)).node =
      (((St.new Nat).pushBack 10).pushBack 20).dummy ∧
    (((RawCursor.new (((St.new Nat).pushBack 10).pushBack 20)).moveNext
          (((St.new Nat).pushBack 10).pushBack 20)).movePrev
        (((St.new Nat).pushBack 10).pushBack 20)).index = 0 ∧
    (((St.new Nat).pushBack 10).pushBack 20).len = 2 := by
  decide

/-- **C4.** The claim states that every public operation yielding a mutable
payload reference requires exclusive (`&mut`) access to the list.  The
source signatures `pub fn front_mut(&self) -> Option<&mut T>` and
`pub fn back_mut(&self) -> Option<&mut T>` (mod.rs lines 99 and 107) take a
shared receiver yet return a mutable payload reference, so two overlapping
mutable views can be obtained through shared references, contradicting the
exclusive-mutation claim. -/
theorem front_mut_shared_receiver :
    yieldsMutPayload PubFn.frontMut = true ∧
      receiver PubFn.frontMut = Receiver.shared ∧
      yieldsMutPayload PubFn.backMut = true ∧
      receiver PubFn.backMut = Receiver.shared := by
  decide

/-- **C5.** After any sequence of the guarded mutating operations
(`push_front`, `push_back`, the pops, cursor `insert_after` /
`insert_before` / `remove_current`, `slice_off`, `slice_off_as_list`)
starting from `LinkedList::new()`, whenever the sentinel exists the ring
invariant holds: the linked nodes form a well-formed ring `ns` (`StWF`,
i.e. `Ring`-chained from the sentinel, distinct, of length `len`), every
linked node `n` (sentinel included) satisfies `n.next.prev == n` and
`n.prev.next == n`, and traversing next-links from the sentinel through all
`len` elements returns to the sentinel, with prev-links doing the same in
reverse. -/
theorem ring_invariant_reachable {T : Type} [Inhabited T] (s : St T)
    (h : Reachable s) (d : Nat) (hd : s.dummy = some d) :
    ∃ ns : List Nat, StWF s ns ∧ s.len = ns.length ∧
      (∀ n ∈ d :: ns, prevF s.heap (nextF s.heap n) = n ∧
        nextF s.heap (prevF s.heap n) = n) ∧
      (nextF s.heap)^[s.len + 1] d = d ∧
      (prevF s.heap)^[s.len + 1] d = d := by
  obtain ⟨ns, hwf, -⟩ := reachable_wf h
  obtain ⟨hring, hlen, hnd, hfr⟩ := StWF_some_elim hd hwf
  refine ⟨ns, hwf, hlen, ring_pointwise hring, ?_, ?_⟩
  · have h1 := chain2_iterate_next (ns ++ [d]) d hring
    rw [hlen]
    simpa using h1
  · have h1 := chain2_iterate_prev (ns ++ [d]) d hring
    rw [hlen]
    simpa using h1

/-- Witness for C5 at the concretely reachable two-element list `ex2`. -/
theorem ring_invariant_reachable_witness :
    ∃ ns : List Nat, StWF ex2 ns ∧ ex2.len = ns.length ∧
      (∀ n ∈ 1 :: ns, prevF ex2.heap (nextF ex2.heap n) = n ∧
        nextF ex2.heap (prevF ex2.heap n) = n) ∧
      (nextF ex2.heap)^[ex2.len + 1] 1 = 1 ∧
      (prevF ex2.heap)^[ex2.len + 1] 1 = 1 :=
  ring_invariant_reachable ex2
    (Reachable.step _ (Op.pushBack 2)
      (Reachable.step _ (Op.pushFront 1) Reachable.new
        (show (St.new Nat).len + 1 < USIZE by decide))
      (show (Op.apply (Op.pushFront 1) (St.new Nat)).len + 1 < USIZE by decide))
    1 rfl

/-- **C6.** `remove_current` returns no value and leaves the list and cursor
unchanged exactly when the cursor sits at the ghost position (absent handle
or sentinel node); otherwise it yields the current node's payload,
decrements `len` by one, keeps the stored index (which therefore equals the
new length when the removed element was the last, index `len - 1`), and
moves the handle to the removed node's successor. -/
theorem removeCurrent_ghost_or_removes {T : Type} [Inhabited T] {s : St T}
    {ns : List Nat} {c : RawCursor} (hwf : StWF s ns)
    (hok : CursorOk c s ns) :
    (((c.removeCurrent s).1 = none ∧ (c.removeCurrent s).2.1 = c ∧
        (c.removeCurrent s).2.2 = s) ↔
      (c.node = none ∨ c.node = s.dummy)) ∧
    ∀ n p q, c.node = some n → ns = p ++ n :: q →
      (c.removeCurrent s).1 = some (payload s.heap n) ∧
      (c.removeCurrent s).2.1.node = some (nextF s.heap n) ∧
      (c.removeCurrent s).2.1.index = c.index ∧
      (c.removeCurrent s).2.2.len = s.len - 1 ∧
      StWF (c.removeCurrent s).2.2 (p ++ q) ∧
      (c.index = ns.length - 1 →
        (c.removeCurrent s).2.1.index = (c.removeCurrent s).2.2.len) := by
  have hmain : ∀ n p q, c.node = some n → ns = p ++ n :: q →
      (c.removeCurrent s).1 = some (payload s.heap n) ∧
      (c.removeCurrent s).2.1.node = some (nextF s.heap n) ∧
      (c.removeCurrent s).2.1.index = c.index ∧
      (c.removeCurrent s).2.2.len = s.len - 1 ∧
      StWF (c.removeCurrent s).2.2 (p ++ q) ∧
      (c.index = ns.length - 1 →
        (c.removeCurrent s).2.1.index = (c.removeCurrent s).2.2.len) := by
    intro n p q hc hpq
    cases hd : s.dummy with
    | none => simp [CursorOk, hc, hd] at hok
    | some d =>
      obtain ⟨hring, hlen, hnd, hfr⟩ := StWF_some_elim hd hwf
      have hnmem : n ∈ ns := by rw [hpq]; simp
      have hnd0 : ¬(n = d) := by
        intro he
        subst he
        exact (List.nodup_cons.1 hnd).1 hnmem
      have hdm : s.isDummy n = false := by
        simp [St.isDummy, hd]
        intro he
        exact absurd he.symm hnd0
      have hwf' : StWF s (p ++ (n :: ([] : List Nat)) ++ q) := by
        rw [hpq] at hwf
        simpa using hwf
      have hs := sliceOff_wf hd hwf'
      have hred : c.removeCurrent s =
          (some ((s.sliceOff n n 1).1.headI),
            { c with node := some ((s.heap.mem n).next) },
            (s.sliceOff n n 1).2) := by
        simp [RawCursor.removeCurrent, hc, St.nodePop, hdm, St.popUnchecked]
      rw [hred]
      have hyield : (s.sliceOff n n 1).1 = pays s.heap [n] := by
        simpa using hs.2.2.2.1
      refine ⟨?_, rfl, rfl, ?_, ?_, ?_⟩
      · rw [hyield]
        rfl
      · simpa using hs.2.1
      · simpa using hs.1
      · intro hidx
        show c.index = (s.sliceOff n n 1).2.len
        have h2 : (s.sliceOff n n 1).2.len = s.len - 1 := by
          simpa using hs.2.1
        rw [hidx, h2, hlen]
  refine ⟨⟨?_, ?_⟩, hmain⟩
  · intro hres
    cases hc : c.node with
    | none => exact Or.inl rfl
    | some n =>
      cases hd : s.dummy with
      | none => simp [CursorOk, hc, hd] at hok
      | some d =>
        simp only [CursorOk, hc, hd] at hok
        rcases List.mem_cons.1 hok with h1 | h1
        · subst h1
          exact Or.inr rfl
        · obtain ⟨p, q, hpq⟩ := List.append_of_mem h1
          have := (hmain n p q hc hpq).1
          rw [hres.1] at this
          exact absurd this (by simp)
  · intro hgh
    rcases hgh with h1 | h1
    · simp [RawCursor.removeCurrent, h1]
    · cases hc : c.node with
      | none => simp [RawCursor.removeCurrent, hc]
      | some n =>
        rw [hc] at h1
        have hdm : s.isDummy n = true := by
          simp [St.isDummy, ← h1]
        simp [RawCursor.removeCurrent, hc, St.nodePop, hdm]

/-- Witness for C6 on `ex2` with the cursor at the front element
(address 2, payload 1): the removal yields 1, moves the handle to
address 3 and leaves the one-element ring. -/
theorem removeCurrent_ghost_or_removes_witness :
    ((((RawCursor.mk (some 2) 0).removeCurrent ex2).1 = none ∧
        ((RawCursor.mk (some 2) 0).removeCurrent ex2).2.1 =
          RawCursor.mk (some 2) 0 ∧
        ((RawCursor.mk (some 2) 0).removeCurrent ex2).2.2 = ex2) ↔
      ((RawCursor.mk (some 2) 0).node = none ∨
        (RawCursor.mk (some 2) 0).node = ex2.dummy)) ∧
    ∀ n p q, (RawCursor.mk (some 2) 0).node = some n →
        [2, 3] = p ++ n :: q →
      ((RawCursor.mk (some 2) 0).removeCurrent ex2).1 =
        some (payload ex2.heap n) ∧
      ((RawCursor.mk (some 2) 0).removeCurrent ex2).2.1.node =
        some (nextF ex2.heap n) ∧
      ((RawCursor.mk (some 2) 0).removeCurrent ex2).2.1.index =
        (RawCursor.mk (some 2) 0).index ∧
      ((RawCursor.mk (some 2) 0).removeCurrent ex2).2.2.len = ex2.len - 1 ∧
      StWF ((RawCursor.mk (some 2) 0).removeCurrent ex2).2.2 (p ++ q) ∧
      ((RawCursor.mk (some 2) 0).index = ([2, 3] : List Nat).length - 1 →
        ((RawCursor.mk (some 2) 0).removeCurrent ex2).2.1.index =
          ((RawCursor.mk (some 2) 0).removeCurrent ex2).2.2.len) :=
  removeCurrent_ghost_or_removes (by decide)
    (show (2 : Nat) ∈ 1 :: [2, 3] by decide)

/-- **C7.** For a cursor at the ghost position (its handle is the list's
sentinel state, its stored index the length), `insert_after(x)` inserts `x`
as the new front element and shifts the stored index forward by one, while
`insert_before(x)` inserts `x` as the new back element and leaves the stored
index unchanged; both lazily materialize the sentinel if the list was never
initialized and increment `len` by one, leaving the old payloads in place. -/
theorem ghost_insert_front_back {T : Type} [Inhabited T] {s : St T}
    {ns : List Nat} {c : RawCursor} (hwf : StWF s ns)
    (hc : c.node = s.dummy) (hi : c.index = s.len)
    (hb : ns.length + 1 < USIZE) (x : T) :
    (∃ d m, (c.insertAfter s x).2.dummy = some d ∧
      StWF (c.insertAfter s x).2 (m :: ns) ∧
      payload (c.insertAfter s x).2.heap m = x ∧
      pays (c.insertAfter s x).2.heap ns = pays s.heap ns ∧
      (c.insertAfter s x).2.len = s.len + 1 ∧
      (c.insertAfter s x).1.index = c.index + 1) ∧
    (∃ d m, (c.insertBefore s x).2.dummy = some d ∧
      StWF (c.insertBefore s x).2 (ns ++ [m]) ∧
      payload (c.insertBefore s x).2.heap m = x ∧
      pays (c.insertBefore s x).2.heap ns = pays s.heap ns ∧
      (c.insertBefore s x).2.len = s.len + 1 ∧
      (c.insertBefore s x).1.index = c.index) := by
  cases hd : s.dummy with
  | some d =>
    rw [hd] at hc
    obtain ⟨hring, hlen, hnd, hfr⟩ := StWF_some_elim hd hwf
    have hcc : c.cinit s = (d, c, s) := by
      simp only [RawCursor.cinit, hc]
    have hbound : s.len + 1 < USIZE := by omega
    constructor
    · -- insert_after at the sentinel: new front
      have hA := nodeInsertAfter_wf hd hwf
        (show ns = [] ++ ns from (List.nil_append ns).symm) hb x
      have hstA : (c.insertAfter s x).2 = s.nodeInsertAfter d x := by
        rw [cursorInsertAfter_state, hcc]
      have hdum : (s.nodeInsertAfter d x).dummy = some d := hA.2.2.1
      have hlenA : (s.nodeInsertAfter d x).len = s.len + 1 := hA.2.1
      have hdm : (s.nodeInsertAfter d x).isDummy d = true := by
        simp [St.isDummy, hdum]
      have hfst : (c.insertAfter s x).1 = c.indexAdd 1 (s.nodeInsertAfter d x) := by
        simp [RawCursor.insertAfter, RawCursor.cinit, hc, hdm]
      refine ⟨d, s.heap.fresh, ?_, ?_, ?_, ?_, ?_, ?_⟩
      · rw [hstA]; exact hdum
      · rw [hstA]; simpa using hA.1
      · rw [hstA]; exact payload_of_item hA.2.2.2.1
      · rw [hstA]
        refine pays_congr_mem ns ?_
        intro u hu
        exact hA.2.2.2.2.1 u (hfr u (List.mem_cons_of_mem _ hu))
      · rw [hstA]; exact hlenA
      · rw [hfst]
        exact indexAdd_one_at_len hi (by rw [hlenA]) (by omega)
    · -- insert_before at the sentinel: new back
      have hsplit := (chain2_split ns [d] d).1 hring
      have hprev : (s.heap.mem d).prev = lastD d ns := hsplit.2.1.2
      have hfrd : d < s.heap.fresh := hfr d (by simp)
      have hprevfr : (s.heap.mem d).prev < s.heap.fresh := by
        rw [hprev]
        refine hfr _ (lastD_mem d ns)
      have hz : (s.heap.mem ((s.heap.mem d).prev)).next = d := by
        rw [hprev]
        exact hsplit.2.1.1
      have hbeq : s.nodeInsertBefore d x =
          s.nodeInsertAfter (lastD d ns) x := by
        rw [nodeInsertBefore_eq s d x hfrd hprevfr hz, hprev]
      have hB := nodeInsertAfter_wf hd hwf
        (show ns = ns ++ [] from (List.append_nil ns).symm) hb x
      have hstB : (c.insertBefore s x).2 = s.nodeInsertBefore d x := by
        rw [cursorInsertBefore_state, hcc]
      have hdumB : (s.nodeInsertBefore d x).dummy = some d := by
        rw [hbeq]; exact hB.2.2.1
      have hdmB : (s.nodeInsertBefore d x).isDummy d = true := by
        simp [St.isDummy, hdumB]
      have hfstB : (c.insertBefore s x).1 = c := by
        simp [RawCursor.insertBefore, RawCursor.cinit, hc, hdmB]
      refine ⟨d, s.heap.fresh, ?_, ?_, ?_, ?_, ?_, ?_⟩
      · rw [hstB]; exact hdumB
      · rw [hstB, hbeq]; simpa using hB.1
      · rw [hstB, hbeq]; exact payload_of_item hB.2.2.2.1
      · rw [hstB, hbeq]
        refine pays_congr_mem ns ?_
        intro u hu
        exact hB.2.2.2.2.1 u (hfr u (List.mem_cons_of_mem _ hu))
      · rw [hstB, hbeq]; exact hB.2.1
      · rw [hfstB]
  | none =>
    rw [hd] at hc
    obtain ⟨hns, hl0⟩ := StWF_none_elim hd hwf
    subst hns
    have hwf1 : StWF (s.init).2 [] := init_wf_none hd hwf
    have hd1 : ((s.init).2).dummy = some ((s.init).1) := by
      rw [init_none hd]
    have hlen1 : (s.init).2.len = s.len := by
      rw [init_none hd]
    have hcc : c.cinit s = ((s.init).1,
        { c with node := some (s.init).1 }, (s.init).2) := by
      simp only [RawCursor.cinit, hc]
    obtain ⟨hring1, hlen1b, hnd1, hfr1⟩ := StWF_some_elim hd1 hwf1
    constructor
    · -- insert_after: the single element is both front and back
      have hA := nodeInsertAfter_wf hd1 hwf1
        (show ([] : List Nat) = [] ++ [] from rfl) (by simpa using hb) x
      have hstA : (c.insertAfter s x).2 =
          ((s.init).2).nodeInsertAfter ((s.init).1) x := by
        rw [cursorInsertAfter_state, hcc]
      have hdum : (((s.init).2).nodeInsertAfter ((s.init).1) x).dummy =
          some ((s.init).1) := hA.2.2.1
      have hlenA : (((s.init).2).nodeInsertAfter ((s.init).1) x).len =
          s.len + 1 := by
        have h1 := hA.2.1
        rw [hlen1] at h1
        exact h1
      have hdm : (((s.init).2).nodeInsertAfter ((s.init).1) x).isDummy
          ((s.init).1) = true := by
        simp [St.isDummy, hdum]
      have hfst : (c.insertAfter s x).1 =
          ({ c with node := some (s.init).1 }).indexAdd 1
            (((s.init).2).nodeInsertAfter ((s.init).1) x) := by
        simp [RawCursor.insertAfter, RawCursor.cinit, hc, hdm]
      refine ⟨(s.init).1, (s.init).2.heap.fresh, ?_, ?_, ?_, rfl, ?_, ?_⟩
      · rw [hstA]; exact hdum
      · rw [hstA]; simpa using hA.1
      · rw [hstA]; exact payload_of_item hA.2.2.2.1
      · rw [hstA]; exact hlenA
      · rw [hfst]
        exact indexAdd_one_at_len (show ({ c with node := some (s.init).1 }).index = s.len from hi)
          (by rw [hlenA]) (by rw [hl0]; simpa using hb)
    · -- insert_before: the single element is both back and front
      have hprevd : ((s.init).2.heap.mem ((s.init).1)).prev = (s.init).1 := by
        have hm := ring_prev_mem hring1 ((s.init).1) (by simp)
        simpa [prevF] using hm
      have hz : ((s.init).2.heap.mem (((s.init).2.heap.mem
          ((s.init).1)).prev)).next = (s.init).1 := by
        rw [hprevd]
        exact hring1.1.1
      have hfrd : (s.init).1 < (s.init).2.heap.fresh := hfr1 _ (by simp)
      have hprevfr : ((s.init).2.heap.mem ((s.init).1)).prev <
          (s.init).2.heap.fresh := by
        rw [hprevd]; exact hfrd
      have hbeq : ((s.init).2).nodeInsertBefore ((s.init).1) x =
          ((s.init).2).nodeInsertAfter ((s.init).1) x := by
        rw [nodeInsertBefore_eq _ _ _ hfrd hprevfr hz, hprevd]
      have hB := nodeInsertAfter_wf hd1 hwf1
        (show ([] : List Nat) = [] ++ [] from rfl) (by simpa using hb) x
      have hstB : (c.insertBefore s x).2 =
          ((s.init).2).nodeInsertBefore ((s.init).1) x := by
        rw [cursorInsertBefore_state, hcc]
      have hdumB : (((s.init).2).nodeInsertBefore ((s.init).1) x).dummy =
          some ((s.init).1) := by
        rw [hbeq]; exact hB.2.2.1
      have hdmB : (((s.init).2).nodeInsertBefore ((s.init).1) x).isDummy
          ((s.init).1) = true := by
        simp [St.isDummy, hdumB]
      have hfstB : (c.insertBefore s x).1 =
          { c with node := some (s.init).1 } := by
        simp [RawCursor.insertBefore, RawCursor.cinit, hc, hdmB]
      refine ⟨(s.init).1, (s.init).2.heap.fresh, ?_, ?_, ?_, rfl, ?_, ?_⟩
      · rw [hstB]; exact hdumB
      · rw [hstB, hbeq]; simpa using hB.1
      · rw [hstB, hbeq]; exact payload_of_item hB.2.2.2.1
      · rw [hstB, hbeq]
        have h1 := hB.2.1
        rw [hlen1] at h1
        exact h1
      · rw [hfstB]

/-- Witness for C7: the ghost cursor of `ex2` (handle at the sentinel,
index 2 = len). -/
theorem ghost_insert_front_back_witness :
    (∃ d m, ((RawCursor.mk (some 1) 2).insertAfter ex2 7).2.dummy = some d ∧
      StWF ((RawCursor.mk (some 1) 2).insertAfter ex2 7).2 (m :: [2, 3]) ∧
      payload ((RawCursor.mk (some 1) 2).insertAfter ex2 7).2.heap m = 7 ∧
      pays ((RawCursor.mk (some 1) 2).insertAfter ex2 7).2.heap [2, 3] =
        pays ex2.heap [2, 3] ∧
      ((RawCursor.mk (some 1) 2).insertAfter ex2 7).2.len = ex2.len + 1 ∧
      ((RawCursor.mk (some 1) 2).insertAfter ex2 7).1.index =
        (RawCursor.mk (some 1) 2).index + 1) ∧
    (∃ d m, ((RawCursor.mk (some 1) 2).insertBefore ex2 7).2.dummy = some d ∧
      StWF ((RawCursor.mk (some 1) 2).insertBefore ex2 7).2 ([2, 3] ++ [m]) ∧
      payload ((RawCursor.mk (some 1) 2).insertBefore ex2 7).2.heap m = 7 ∧
      pays ((RawCursor.mk (some 1) 2).insertBefore ex2 7).2.heap [2, 3] =
        pays ex2.heap [2, 3] ∧
      ((RawCursor.mk (some 1) 2).insertBefore ex2 7).2.len = ex2.len + 1 ∧
      ((RawCursor.mk (some 1) 2).insertBefore ex2 7).1.index =
        (RawCursor.mk (some 1) 2).index) :=
  ghost_insert_front_back (by decide) rfl rfl (by decide) 7

/-- **C8.** On every reachable list state, full forward iteration yields
exactly the ring's payloads in order and full backward iteration yields
their reverse (each element exactly once, `len()` elements in total, and
`ExactSizeIterator::len` agrees); after any `k` forward steps the
iterator's reported remaining count is `len - k`, which is exactly the
number of elements it will still yield (the dropped-by-`k` tail). -/
theorem iteration_visits_all {T : Type} [Inhabited T] {s : St T}
    (h : Reachable s) :
    ∃ ns : List Nat, StWF s ns ∧
      s.iterFwd = pays s.heap ns ∧
      s.iterBwd = (pays s.heap ns).reverse ∧
      s.iterLen = s.len ∧
      s.iterFwd.length = s.len ∧
      s.iterBwd.length = s.len ∧
      ∀ it, s.rawIter = some it → ∀ k, k ≤ it.len →
        (RawIterSt.stepF s.heap k it).len = it.len - k ∧
        pays s.heap (collectFwdA s.heap (RawIterSt.stepF s.heap k it).front
            ((RawIterSt.stepF s.heap k it).len)) =
          (pays s.heap ns).drop k := by
  obtain ⟨ns, hwf, -⟩ := reachable_wf h
  have hlen := StWF_len hwf
  refine ⟨ns, hwf, iterFwd_eq hwf, iterBwd_eq hwf, iterLen_eq hwf, ?_, ?_, ?_⟩
  · rw [iterFwd_eq hwf, hlen]
    simp [pays]
  · rw [iterBwd_eq hwf, hlen]
    simp [pays]
  · intro it hit k hk
    cases hd : s.dummy with
    | none => simp [St.rawIter, hd] at hit
    | some d =>
      obtain ⟨hring, hlen2, _, _⟩ := StWF_some_elim hd hwf
      refine ⟨(stepF_collect k it hk).1, ?_⟩
      rw [(stepF_collect k it hk).2.2]
      have hit2 : it = ⟨nextF s.heap d, prevF s.heap d, s.len⟩ := by
        have h1 : s.rawIter = some ⟨nextF s.heap d, prevF s.heap d, s.len⟩ := by
          simp [St.rawIter, hd]
        rw [h1] at hit
        exact (Option.some.inj hit).symm
      have hcol : collectFwdA s.heap it.front it.len = ns := by
        rw [hit2]
        show collectFwdA s.heap (nextF s.heap d) s.len = ns
        rw [hlen2, chain2_collectF (ns ++ [d]) d hring ns.length (by simp),
          List.take_left]
      rw [hcol]
      simp [pays]

/-- Witness for C8 at the concretely reachable two-element list `ex2`. -/
theorem iteration_visits_all_witness :
    ∃ ns : List Nat, StWF ex2 ns ∧
      ex2.iterFwd = pays ex2.heap ns ∧
      ex2.iterBwd = (pays ex2.heap ns).reverse ∧
      ex2.iterLen = ex2.len ∧
      ex2.iterFwd.length = ex2.len ∧
      ex2.iterBwd.length = ex2.len ∧
      ∀ it, ex2.rawIter = some it → ∀ k, k ≤ it.len →
        (RawIterSt.stepF ex2.heap k it).len = it.len - k ∧
        pays ex2.heap (collectFwdA ex2.heap
            (RawIterSt.stepF ex2.heap k it).front
            ((RawIterSt.stepF ex2.heap k it).len)) =
          (pays ex2.heap ns).drop k :=
  iteration_visits_all
    (Reachable.step _ (Op.pushBack 2)
      (Reachable.step _ (Op.pushFront 1) Reachable.new
        (show (St.new Nat).len + 1 < USIZE by decide))
      (show (Op.apply (Op.pushFront 1) (St.new Nat)).len + 1 < USIZE by decide))

/-- **C9 (amended).** `slice_off_as_list` on the contiguous run `rh :: rt`
(of `k = rt.length + 1` real nodes, in a source list of `n` elements)
leaves the source with `n - k` elements, produces an independent list of
exactly `k` elements behind a freshly allocated sentinel holding the run's
payloads in order, and the original sequence is reconstructed by splicing
the new list's contents back between the remainder's prefix and suffix.
(The claim's reconstruction by *concatenating* `A`'s remainder with `B`
holds only when the run is a suffix; see the counterexample.) -/
theorem sliceOffAsList_law {T : Type} [Inhabited T] {s : St T} {d rh : Nat}
    {p rt q : List Nat} (hd : s.dummy = some d)
    (hwf : StWF s (p ++ (rh :: rt) ++ q)) (hk : rt.length + 1 < USIZE) :
    (s.sliceOffAsList rh (lastD rh rt) (rt.length + 1)).1.len =
      s.len - (rt.length + 1) ∧
    (s.sliceOffAsList rh (lastD rh rt) (rt.length + 1)).2.len =
      rt.length + 1 ∧
    StWF (s.sliceOffAsList rh (lastD rh rt) (rt.length + 1)).1 (p ++ q) ∧
    StWF (s.sliceOffAsList rh (lastD rh rt) (rt.length + 1)).2 (rh :: rt) ∧
    (s.sliceOffAsList rh (lastD rh rt) (rt.length + 1)).1.toList =
      pays s.heap p ++ pays s.heap q ∧
    (s.sliceOffAsList rh (lastD rh rt) (rt.length + 1)).2.toList =
      pays s.heap (rh :: rt) ∧
    s.toList = pays s.heap p ++
      (s.sliceOffAsList rh (lastD rh rt) (rt.length + 1)).2.toList ++
      pays s.heap q := by
  obtain ⟨_, _, _, hfr⟩ := StWF_some_elim hd hwf
  have hs := sliceOffAsList_wf hd hwf hk
  have hBA : (s.sliceOffAsList rh (lastD rh rt) (rt.length + 1)).2.heap =
      (s.sliceOffAsList rh (lastD rh rt) (rt.length + 1)).1.heap := rfl
  have hmem : ∀ u ∈ p ++ (rh :: rt) ++ q, u < s.heap.fresh := by
    intro u hu
    exact hfr u (List.mem_cons_of_mem _ hu)
  have hitems : ∀ u ∈ p ++ (rh :: rt) ++ q,
      (((s.sliceOffAsList rh (lastD rh rt) (rt.length + 1)).1.heap.mem
        u).item) = ((s.heap.mem u).item) :=
    fun u hu => hs.2.2.2.2.2 u (hmem u hu)
  have htoA : (s.sliceOffAsList rh (lastD rh rt) (rt.length + 1)).1.toList =
      pays s.heap p ++ pays s.heap q := by
    simp only [St.toList]
    rw [iterFwd_eq hs.1, pays_congr_mem (p ++ q) (fun u hu => hitems u (by
      simp only [List.mem_append, List.mem_cons] at hu ⊢
      tauto))]
    simp [pays]
  have htoB : (s.sliceOffAsList rh (lastD rh rt) (rt.length + 1)).2.toList =
      pays s.heap (rh :: rt) := by
    simp only [St.toList]
    rw [iterFwd_eq hs.2.1, hBA]
    exact pays_congr_mem _ (fun u hu => hitems u (by
      simp only [List.mem_append, List.mem_cons] at hu ⊢
      tauto))
  have hsto : s.toList =
      pays s.heap p ++ pays s.heap (rh :: rt) ++ pays s.heap q := by
    simp only [St.toList]
    rw [iterFwd_eq hwf]
    simp [pays]
  refine ⟨hs.2.2.1, hs.2.2.2.1, hs.1, hs.2.1, htoA, htoB, ?_⟩
  rw [hsto, htoB]

/-- **C9 counterexample.** Slicing out the run consisting of the *first*
element of the two-element list `ex2` (payloads `[1, 2]`): the remainder
holds `[2]` and the new list holds `[1]`, so concatenating the remainder
with the new list gives `[2, 1]`, not the original `[1, 2]` — appending
`B` after `A` does not reconstruct the original sequence unless the run
was a suffix.  The length halves of the law do hold. -/
theorem sliceOffAsList_concat_counterexample :
    (ex2.sliceOffAsList 2 2 1).1.len = ex2.len - 1 ∧
    (ex2.sliceOffAsList 2 2 1).2.len = 1 ∧
    (ex2.sliceOffAsList 2 2 1).1.toList ++
        (ex2.sliceOffAsList 2 2 1).2.toList ≠ ex2.toList := by
  decide

set_option maxHeartbeats 1000000 in
/-- Witness for the amended C9 on `ex2`, slicing out its first element. -/
theorem sliceOffAsList_law_witness :
    (ex2.sliceOffAsList 2 2 1).1.len = ex2.len - 1 ∧
    (ex2.sliceOffAsList 2 2 1).2.len = 1 ∧
    StWF (ex2.sliceOffAsList 2 2 1).1 ([] ++ [3]) ∧
    StWF (ex2.sliceOffAsList 2 2 1).2 [2] ∧
    (ex2.sliceOffAsList 2 2 1).1.toList =
      pays ex2.heap [] ++ pays ex2.heap [3] ∧
    (ex2.sliceOffAsList 2 2 1).2.toList = pays ex2.heap [2] ∧
    ex2.toList = pays ex2.heap [] ++
      (ex2.sliceOffAsList 2 2 1).2.toList ++ pays ex2.heap [3] := by
  have h := sliceOffAsList_law (show ex2.dummy = some 1 from rfl)
    (show StWF ex2 ([] ++ (2 :: ([] : List Nat)) ++ [3]) by decide)
    (show ([] : List Nat).length + 1 < USIZE by decide)
  exact h

/-- **C3 counterexample.** `DrainFilter::size_hint` (iter.rs 159–161) is
`(0, Some(self.list.len - self.retained))`: on the freshly-created drain
filter of the two-element list the *lower* bound is `0`, not
`len - retained = 2` as the claim states, and a finite *upper* bound `Some 2`
is reported although the claim says none is. -/
theorem drain_sizeHint_counterexample :
    (DrainSt.new ex2).sizeHint.1 ≠ ex2.len - (DrainSt.new ex2).retained ∧
    (DrainSt.new ex2).sizeHint.2 ≠ none := by
  decide

/-- **C3 (amended).** `DrainFilter::size_hint` reports the lower bound `0`
and the upper bound `list.len - retained`, which under the drain-filter
invariant equals the number of elements not yet visited — the correct
upper bound on the number of future yields (the predicate may still reject
any of them, hence the `0`). -/
theorem drain_sizeHint {T : Type} [Inhabited T] {dst : DrainSt T}
    {kf u kb : List Nat} (hwf : DrainSt.WF dst kf u kb) :
    dst.sizeHint = (0, some u.length) := by
  obtain ⟨d, it, hdum, hinner, hst, hlen, hret, hfb⟩ := hwf
  have hslen : dst.st.len = kf.length + u.length + kb.length := by
    rw [StWF_len hst]
    simp
    omega
  unfold DrainSt.sizeHint
  rw [hslen, hret]
  have : kf.length + u.length + kb.length - (kf.length + kb.length) =
      u.length := by omega
  rw [this]

/-- Witness for the amended C3: the fresh drain filter of `ex2` reports
`(0, some 2)`. -/
theorem drain_sizeHint_witness :
    (DrainSt.new ex2).sizeHint = (0, some 2) := by
  have h := drain_sizeHint
    (show DrainSt.WF (DrainSt.new ex2) [] [2, 3] [] from
      ⟨1, ⟨2, 3, 2⟩, rfl, rfl, by decide, rfl, rfl, fun hu => ⟨rfl, rfl⟩⟩)
  exact h

/-- **C10.** Each call to `DrainFilter::next` (or `next_back`) removes from
the list exactly the one element it yields, if any: on a `some x` return the
unvisited run splits as `u1 ++ m :: u2` where the predicate rejected (and
kept, with write-back) every node of `u1`, `m` alone was popped with `x`
its (possibly updated) payload, and the drain invariant is re-established
with `u2` unvisited — so all rejected and never-visited elements remain
linked in original relative order; on a `none` return nothing is removed.
Since the invariant (hence the full ring) holds at every intermediate
state and the type has no `Drop` glue, abandoning the iterator leaves every
unyielded element in the list. -/
theorem drainFilter_removes_only_yield {T : Type} [Inhabited T]
    (pred : T → Bool × T) {dst : DrainSt T} {kf u kb : List Nat}
    (hwf : DrainSt.WF dst kf u kb)
    (hb : kf.length + kb.length + u.length < USIZE) :
    (((dst.next pred).1 = none →
        DrainSt.WF (dst.next pred).2 (kf ++ u) [] kb) ∧
      ∀ x, (dst.next pred).1 = some x →
        ∃ u1 m u2, u = u1 ++ m :: u2 ∧
          x = (pred (payload dst.st.heap m)).2 ∧
          DrainSt.WF (dst.next pred).2 (kf ++ u1) u2 kb) ∧
    (((dst.nextBack pred).1 = none →
        DrainSt.WF (dst.nextBack pred).2 kf [] (u ++ kb)) ∧
      ∀ x, (dst.nextBack pred).1 = some x →
        ∃ u1 m u2, u = u1 ++ m :: u2 ∧
          x = (pred (payload dst.st.heap m)).2 ∧
          DrainSt.WF (dst.nextBack pred).2 kf u1 (u2 ++ kb)) := by
  obtain ⟨d, it, hdum, hinner, hst, hlen, hret, hfb⟩ := hwf
  have hbound : dst.retained + u.length < USIZE := by
    rw [hret]
    omega
  constructor
  · -- DrainFilter::next
    have hL : dst.next pred =
        ((drainLoopF pred u.length it dst.retained dst.st).1,
          ⟨some (drainLoopF pred u.length it dst.retained dst.st).2.1,
            (drainLoopF pred u.length it dst.retained dst.st).2.2.1,
            (drainLoopF pred u.length it dst.retained dst.st).2.2.2⟩) := by
      simp [DrainSt.next, hinner, hlen]
    have big := drainLoopF_spec pred kb d u kf it dst.retained dst.st
      hdum hst hlen hfb hret hbound
    constructor
    · intro hnone
      have hn2 : (drainLoopF pred u.length it dst.retained dst.st).1 =
          none := by
        rw [hL] at hnone
        exact hnone
      obtain ⟨g1, g2, g3, g4⟩ := big.1 hn2
      refine ⟨d, (drainLoopF pred u.length it dst.retained dst.st).2.1,
        ?_, ?_, ?_, ?_, ?_, ?_⟩
      · rw [hL]
        exact g1
      · rw [hL]
      · rw [hL]
        simpa using g2
      · exact g3
      · rw [hL]
        exact g4
      · intro hu
        exact absurd rfl hu
    · intro x hx
      have hx2 : (drainLoopF pred u.length it dst.retained dst.st).1 =
          some x := by
        rw [hL] at hx
        exact hx
      obtain ⟨u1, m, u2, hdec, hxval, g1, g2, g3, g4, g5⟩ := big.2 x hx2
      refine ⟨u1, m, u2, hdec, hxval, d,
        (drainLoopF pred u.length it dst.retained dst.st).2.1,
        ?_, ?_, ?_, g3, ?_, g4⟩
      · rw [hL]
        exact g1
      · rw [hL]
      · rw [hL]
        simpa using g2
      · rw [hL]
        exact g5
  · -- DrainFilter::next_back
    have hL : dst.nextBack pred =
        ((drainLoopB pred u.length it dst.retained dst.st).1,
          ⟨some (drainLoopB pred u.length it dst.retained dst.st).2.1,
            (drainLoopB pred u.length it dst.retained dst.st).2.2.1,
            (drainLoopB pred u.length it dst.retained dst.st).2.2.2⟩) := by
      simp [DrainSt.nextBack, hinner, hlen]
    have big := drainLoopB_spec pred kf d u kb it dst.retained dst.st
      hdum hst hlen hfb hret hbound
    constructor
    · intro hnone
      have hn2 : (drainLoopB pred u.length it dst.retained dst.st).1 =
          none := by
        rw [hL] at hnone
        exact hnone
      obtain ⟨g1, g2, g3, g4⟩ := big.1 hn2
      refine ⟨d, (drainLoopB pred u.length it dst.retained dst.st).2.1,
        ?_, ?_, ?_, ?_, ?_, ?_⟩
      · rw [hL]
        exact g1
      · rw [hL]
      · rw [hL]
        simpa using g2
      · exact g3
      · rw [hL]
        exact g4
      · intro hu
        exact absurd rfl hu
    · intro x hx
      have hx2 : (drainLoopB pred u.length it dst.retained dst.st).1 =
          some x := by
        rw [hL] at hx
        exact hx
      obtain ⟨u1, m, u2, hdec, hxval, g1, g2, g3, g4, g5⟩ := big.2 x hx2
      refine ⟨u1, m, u2, hdec, hxval, d,
        (drainLoopB pred u.length it dst.retained dst.st).2.1,
        ?_, ?_, ?_, g3, ?_, g4⟩
      · rw [hL]
        exact g1
      · rw [hL]
      · rw [hL]
        exact g2
      · rw [hL]
        exact g5

/-- Witness for C10: draining `ex2` (payloads `[1, 2]`) with the predicate
"equals 1", forward and backward. -/
theorem drainFilter_removes_only_yield_witness :
    ((((DrainSt.new ex2).next (fun t => (t == 1, t))).1 = none →
        DrainSt.WF ((DrainSt.new ex2).next (fun t => (t == 1, t))).2
          ([] ++ [2, 3]) [] []) ∧
      ∀ x, ((DrainSt.new ex2).next (fun t => (t == 1, t))).1 = some x →
        ∃ u1 m u2, [2, 3] = u1 ++ m :: u2 ∧
          x = ((fun t => (t == 1, t)) (payload (DrainSt.new ex2).st.heap m)).2 ∧
          DrainSt.WF ((DrainSt.new ex2).next (fun t => (t == 1, t))).2
            ([] ++ u1) u2 []) ∧
    ((((DrainSt.new ex2).nextBack (fun t => (t == 1, t))).1 = none →
        DrainSt.WF ((DrainSt.new ex2).nextBack (fun t => (t == 1, t))).2
          [] [] ([2, 3] ++ [])) ∧
      ∀ x, ((DrainSt.new ex2).nextBack (fun t => (t == 1, t))).1 = some x →
        ∃ u1 m u2, [2, 3] = u1 ++ m :: u2 ∧
          x = ((fun t => (t == 1, t)) (payload (DrainSt.new ex2).st.heap m)).2 ∧
          DrainSt.WF ((DrainSt.new ex2).nextBack (fun t => (t == 1, t))).2
            [] u1 (u2 ++ [])) := by
  have h := drainFilter_removes_only_yield (fun t : Nat => (t == 1, t))
    (show DrainSt.WF (DrainSt.new ex2) [] [2, 3] [] from
      ⟨1, ⟨2, 3, 2⟩, rfl, rfl, by decide, rfl, rfl, fun hu => ⟨rfl, rfl⟩⟩)
    (by decide)
  exact h

end Sixth

